import Mathlib

/-!
Shallow embedding of the cryptoe-node message library.

The repository contains two revisions of the message abstraction:

* `src/unnamed/part_001` — the Node `Buffer` based implementation
  (`newMessage(bytes, end)`).  A message holds a buffer view `bytes`
  and an integer `end`; the visible window is `bytes[0 .. end)`.
  `Buffer.prototype.slice` returns a *view* sharing the underlying
  allocation, so aliasing is modelled with an explicit heap of arenas.

* `src/cryptoe.js` — the `Uint8Array` based revision
  (`messageFromBytes(bytes, owner)`).  A message holds a typed-array view
  and an `owner` flag; the visible window is the whole view.

Both are embedded below over the same heap model:
a heap is a list of arenas (byte lists); a buffer view is an arena id,
an offset and a view length.  JavaScript typed arrays and Buffers never
extend past their backing allocation; reads past the view yield
`undefined` (modelled by `none`) and out-of-range indexed stores are
silent no-ops (modelled by a no-op write).
-/

/-- A heap: the list of all allocated arenas (backing byte stores). -/
abbrev Heap := List (List Nat)

/-- A buffer view: arena id, byte offset into the arena, view length.
Mirrors a Node `Buffer` / `Uint8Array` view (`byteOffset`, `length`). -/
structure Buf where
  aid : Nat
  off : Nat
  blen : Nat
deriving DecidableEq, Repr

/-- `part_001` message state: the captured variables `bytes` (a Buffer
view) and `end` (the window size).  `end` is a Lean keyword, hence `endd`. -/
structure Msg where
  buf : Buf
  endd : Nat
deriving DecidableEq, Repr

/-- The byte store of arena `aid` (empty list for a dangling id). -/
def arena (h : Heap) (aid : Nat) : List Nat :=
  h.getD aid []

/-- Read a byte of arena `aid` at absolute position `p`
(`undefined`, i.e. `none`, when out of the arena). -/
def aread (h : Heap) (aid p : Nat) : Option Nat :=
  (arena h aid)[p]?

/-- Store a byte into arena `aid` at absolute position `p`.  JavaScript
coerces the stored number to an unsigned 8-bit value (`v % 256`); an
out-of-range store is a silent no-op (`List.set` is a no-op out of range). -/
def awrite (h : Heap) (aid p v : Nat) : Heap :=
  h.set aid ((arena h aid).set p (v % 256))

/-- `bytes[i]` on a view: `undefined` (`none`) beyond the view length. -/
def readByte (h : Heap) (b : Buf) (i : Nat) : Option Nat :=
  if i < b.blen then aread h b.aid (b.off + i) else none

/-- `bytes[i] = v` on a view: silent no-op beyond the view length. -/
def bwrite (h : Heap) (b : Buf) (i v : Nat) : Heap :=
  if i < b.blen then awrite h b.aid (b.off + i) v else h

/-- Write the values `vs` at consecutive view positions `i, i+1, ...`. -/
def writeVals (h : Heap) (b : Buf) (i : Nat) : List Nat → Heap
  | [] => h
  | v :: vs => writeVals (bwrite h b i v) b (i + 1) vs

/-- Capacity of arena `aid` (`buffer.byteLength` / `bytes.length` of a
Buffer that covers its whole allocation). -/
def arenaLen (h : Heap) (aid : Nat) : Nat :=
  (arena h aid).length

/-- JavaScript index resolution used by `Buffer.prototype.slice` and
`TypedArray.prototype.subarray`: a negative index is relative to the end
of the view, and indices are clamped to `[0, blen]`. -/
def jsIdx (blen : Nat) (x : Int) : Nat :=
  if x < 0 then (x + blen).toNat else min x.toNat blen

/-- `bytes.slice(s, e)` / `bytes.subarray(s, e)`: a new view on the same
arena; no bytes are copied.  An empty view results when `s` resolves past
`e`. -/
def bufSlice (b : Buf) (s e : Int) : Buf :=
  ⟨b.aid, b.off + jsIdx b.blen s, jsIdx b.blen e - jsIdx b.blen s⟩

-- Basic heap lemmas ---------------------------------------------------

theorem arena_nil_of_le (h : Heap) (aid : Nat) (hle : h.length ≤ aid) :
    arena h aid = [] := by
  simp [arena, List.getElem?_eq_none hle]

theorem arena_set_eq (h : Heap) (aid : Nat) (A : List Nat) (hlt : aid < h.length) :
    arena (h.set aid A) aid = A := by
  simp [arena, List.getElem?_set_self hlt]

theorem arena_set_ne (h : Heap) (aid : Nat) (A : List Nat) (aid' : Nat)
    (hne : aid' ≠ aid) :
    arena (h.set aid A) aid' = arena h aid' := by
  simp [arena, List.getElem?_set_ne (Ne.symm hne)]

theorem length_awrite (h : Heap) (aid p v : Nat) :
    (awrite h aid p v).length = h.length := by
  simp [awrite]

theorem arena_awrite (h : Heap) (aid p v aid' : Nat) :
    arena (awrite h aid p v) aid' =
      if aid' = aid then (arena h aid).set p (v % 256) else arena h aid' := by
  unfold awrite
  by_cases he : aid' = aid
  · subst he
    by_cases hlt : aid' < h.length
    · simp [arena_set_eq _ _ _ hlt]
    · rw [List.set_eq_of_length_le (Nat.le_of_not_lt hlt), if_pos rfl,
        arena_nil_of_le _ _ (Nat.le_of_not_lt hlt)]
      simp
  · simp [arena_set_ne _ _ _ _ he, he]

theorem arenaLen_awrite (h : Heap) (aid p v aid' : Nat) :
    arenaLen (awrite h aid p v) aid' = arenaLen h aid' := by
  unfold arenaLen
  rw [arena_awrite]
  by_cases he : aid' = aid <;> simp [he]

theorem aread_awrite_ne (h : Heap) (aid p v aid' p' : Nat)
    (hne : aid' ≠ aid ∨ p' ≠ p) :
    aread (awrite h aid p v) aid' p' = aread h aid' p' := by
  unfold aread
  rw [arena_awrite]
  rcases hne with hne | hne
  · simp [hne]
  · by_cases he : aid' = aid
    · subst he
      simp [List.getElem?_set_ne (Ne.symm hne)]
    · simp [he]

theorem aread_awrite_self (h : Heap) (aid p v : Nat)
    (hp : p < arenaLen h aid) :
    aread (awrite h aid p v) aid p = some (v % 256) := by
  unfold aread
  rw [arena_awrite, if_pos rfl]
  exact List.getElem?_set_self hp

theorem aread_append_lt (h : Heap) (A : List Nat) (aid p : Nat)
    (hlt : aid < h.length) :
    aread (h ++ [A]) aid p = aread h aid p := by
  simp [aread, arena, List.getElem?_append_left hlt]

theorem aread_append_new (h : Heap) (A : List Nat) (p : Nat) :
    aread (h ++ [A]) h.length p = A[p]? := by
  simp [aread, arena, List.getElem?_append_right (Nat.le_refl h.length)]

theorem arenaLen_append_lt (h : Heap) (A : List Nat) (aid : Nat)
    (hlt : aid < h.length) :
    arenaLen (h ++ [A]) aid = arenaLen h aid := by
  simp [arenaLen, arena, List.getElem?_append_left hlt]

theorem arenaLen_append_new (h : Heap) (A : List Nat) :
    arenaLen (h ++ [A]) h.length = A.length := by
  simp [arenaLen, arena, List.getElem?_append_right (Nat.le_refl h.length)]

/-!
## The `part_001` (Node Buffer) message operations

`newMessage(bytes, end)` captures `bytes` and `end`; the public methods
below mutate them.  The embedding passes the state explicitly.
-/

/-- `message.len()` (part_001): returns `end`. -/
def Msg.len (m : Msg) : Nat := m.endd

/-- `message.byteAt(n)` (part_001): `assert(n>=0 && n<end); return bytes[n]`.
A failed assertion and an `undefined` read are both modelled by `none`. -/
def Msg.byteAt (h : Heap) (m : Msg) (n : Nat) : Option Nat :=
  if n < m.endd then readByte h m.buf n else none

/-- `message.slice(a, b)` (part_001):
`if (b===undefined) b = message.len(); if (b<0) b = message.len() + b;
return newMessage(bytes.slice(a, b), b)`.
Note the second constructor argument is `b` itself: the new message's
`end` is `b`, not `b - a`.  (A `b` that is still negative after the
adjustment would make `end` negative in JavaScript; it is clamped to 0
here, and no statement below depends on that corner.) -/
def Msg.slice (m : Msg) (a : Int) (b? : Option Int) : Msg :=
  let b : Int := match b? with
    | none => (m.endd : Int)
    | some b => if b < 0 then b + m.endd else b
  ⟨bufSlice m.buf a b, b.toNat⟩

/-- `message.clone()` (part_001): `return message.slice(0)`. -/
def Msg.clone (m : Msg) : Msg := m.slice 0 none

/-- `message.skip(n)` (part_001):
`if (end < n) n = end; bytes = bytes.slice(n); end -= n`. -/
def Msg.skip (m : Msg) (n : Nat) : Msg :=
  let n' := min n m.endd
  ⟨bufSlice m.buf n' m.buf.blen, m.endd - n'⟩

/-- Big-endian value of a list of byte digits. -/
def beVal (ds : List Nat) : Nat :=
  ds.foldl (fun acc b => 256 * acc + b) 0

/-- `bytes.readUIntBE`-style read of `count` bytes at view offset 0:
Node throws a `RangeError` (modelled by `none`) when the view is shorter
than `count`; in-range reads are within the arena for any view an actual
`Buffer` can denote, so the `getD 0` default is never observable. -/
def readBE (h : Heap) (b : Buf) (count : Nat) : Option Nat :=
  if count ≤ b.blen then
    some (beVal ((List.range count).map (fun i => (aread h b.aid (b.off + i)).getD 0)))
  else none

/-- Reinterpret a `w`-bit unsigned value as a two's complement signed
integer (`readInt16BE` / `readInt32BE` versus the unsigned variants). -/
def asInt (w u : Nat) : Int :=
  if u < 2 ^ (w - 1) then (u : Int) else (u : Int) - 2 ^ w

/-- `message.takeByte()` (part_001): fails when `len() < 1`; otherwise
returns `byteAt(0)` and skips 1 byte.  The returned value is itself an
`Option` because `bytes[0]` can be `undefined` on an under-backed view. -/
def Msg.takeByte (h : Heap) (m : Msg) : Option (Option Nat × Msg) :=
  if m.endd < 1 then none else some (m.byteAt h 0, m.skip 1)

/-- `message.takeInt16()` (part_001): fails when `len() < 2`; otherwise
`bytes.readInt16BE(0)` (which itself raises when the view has fewer than
2 bytes), then skips 2. -/
def Msg.takeInt16 (h : Heap) (m : Msg) : Option (Int × Msg) :=
  if m.endd < 2 then none
  else (readBE h m.buf 2).map (fun u => (asInt 16 u, m.skip 2))

/-- `message.takeUint16()` (part_001). -/
def Msg.takeUint16 (h : Heap) (m : Msg) : Option (Nat × Msg) :=
  if m.endd < 2 then none
  else (readBE h m.buf 2).map (fun u => (u, m.skip 2))

/-- `message.takeInt32()` (part_001). -/
def Msg.takeInt32 (h : Heap) (m : Msg) : Option (Int × Msg) :=
  if m.endd < 4 then none
  else (readBE h m.buf 4).map (fun u => (asInt 32 u, m.skip 4))

/-- `message.takeUint32()` (part_001). -/
def Msg.takeUint32 (h : Heap) (m : Msg) : Option (Nat × Msg) :=
  if m.endd < 4 then none
  else (readBE h m.buf 4).map (fun u => (u, m.skip 4))

/-- `message.takeMessage(len)` (part_001): fails when `len() < len`;
otherwise returns `slice(0, len)` and skips `len` bytes. -/
def Msg.takeMessage (m : Msg) (len : Nat) : Option (Msg × Msg) :=
  if m.endd < len then none
  else some (m.slice 0 (some len), m.skip len)

/-- `reallocate(newBufferSize, newArraySize)` (part_001): allocates a new
arena, copies the window bytes `bytes[0 .. end)` to its start
(`bytes.copy` clamps the source range to the view length), rebinds the
message to the whole new arena and sets `end = newArraySize`.  Its
`wrong size` guard is unreachable from `enlargeBy`, whose arguments
always satisfy `len() <= newArraySize <= newBufferSize`.  `new Buffer(n)`
memory that is neither copied over nor later written is modelled as 0;
append operations overwrite all of `[end, newArraySize)` before it
becomes visible. -/
def Msg.reallocate (h : Heap) (m : Msg) (newBufferSize newArraySize : Nat) :
    Heap × Msg :=
  let newBuffer := (List.range newBufferSize).map (fun i =>
    if i < min m.endd m.buf.blen then (readByte h m.buf i).getD 0 else 0)
  (h ++ [newBuffer], ⟨⟨h.length, 0, newBufferSize⟩, newArraySize⟩)

/-- `enlargeBy(numberOfNewBytes)` (part_001): if the view lacks room for
`end + numberOfNewBytes` bytes, reallocate to twice the requested size;
otherwise only `end` is advanced. -/
def Msg.enlargeBy (h : Heap) (m : Msg) (numberOfNewBytes : Nat) : Heap × Msg :=
  let newSize := m.endd + numberOfNewBytes
  if m.buf.blen < newSize then m.reallocate h (newSize * 2) newSize
  else (h, ⟨m.buf, newSize⟩)

/-- The common shape of every append operation of part_001: remember
`oldend = len()`, call `enlargeBy(k)` for the operation's byte count `k`,
then store the operation's `k` bytes at view positions
`oldend, ..., oldend+k-1`.  `appendByte`/`appendMessage` store via
indexed assignment and `appendInt16/...` via `write*BE`; both coerce each
stored value to 8 bits.  `appendBytes` is a loop of `appendByte`, i.e. a
sequence of such steps with singleton lists. -/
def Msg.appendRaw (h : Heap) (m : Msg) (vals : List Nat) : Heap × Msg :=
  let oldend := m.endd
  let p := m.enlargeBy h vals.length
  (writeVals p.1 p.2.buf oldend vals, p.2)

/-- The `w`-bit two's complement bit pattern of a signed value
(in-range signed writes store exactly these bits; Node's `write*BE`
rejects out-of-range values, so theorems hypothesise the range). -/
def toUnsigned (w : Nat) (v : Int) : Nat :=
  (v % ((2 : Int) ^ w)).toNat

/-- The two big-endian bytes a 16-bit `write*BE` store lays down. -/
def be16 (u : Nat) : List Nat :=
  [u / 2 ^ 8 % 256, u % 256]

/-- The four big-endian bytes a 32-bit `write*BE` store lays down. -/
def be32 (u : Nat) : List Nat :=
  [u / 2 ^ 24 % 256, u / 2 ^ 16 % 256, u / 2 ^ 8 % 256, u % 256]

/-- `message.appendByte(b)` (part_001). -/
def Msg.appendByte (h : Heap) (m : Msg) (b : Nat) : Heap × Msg :=
  m.appendRaw h [b]

/-- `message.appendUint16(value)` (part_001): `bytes.writeUInt16BE`. -/
def Msg.appendUint16 (h : Heap) (m : Msg) (v : Nat) : Heap × Msg :=
  m.appendRaw h (be16 v)

/-- `message.appendInt16(value)` (part_001): `bytes.writeInt16BE`. -/
def Msg.appendInt16 (h : Heap) (m : Msg) (v : Int) : Heap × Msg :=
  m.appendRaw h (be16 (toUnsigned 16 v))

/-- `message.appendUint32(value)` (part_001): `bytes.writeUInt32BE`. -/
def Msg.appendUint32 (h : Heap) (m : Msg) (v : Nat) : Heap × Msg :=
  m.appendRaw h (be32 v)

/-- `message.appendInt32(value)` (part_001): `bytes.writeInt32BE`. -/
def Msg.appendInt32 (h : Heap) (m : Msg) (v : Int) : Heap × Msg :=
  m.appendRaw h (be32 (toUnsigned 32 v))

/-- `cryptoe.emptyMessage()` (part_001): a fresh 256-byte arena with
`end = 0` (`new Buffer(256)` contents are never visible: `end = 0`). -/
def emptyMessage (h : Heap) : Heap × Msg :=
  (h ++ [List.replicate 256 0], ⟨⟨h.length, 0, 256⟩, 0⟩)

/-- The visible bytes of a message: the window `[0, end)` read through
`byteAt` (length `end`; entries are `none` where the view is under-backed). -/
def visible (h : Heap) (m : Msg) : List (Option Nat) :=
  (List.range m.endd).map (fun i => readByte h m.buf i)

/-- Well-formed message state: the arena id is allocated, the view lies
inside its arena (true of every view JavaScript can denote), and the
window does not extend past the view (true of every message produced by
the constructors, `clone`, the take family, `skip` and the appends; the
out-of-range `slice` quirk of part_001 is the one way to violate it). -/
def WFm (h : Heap) (m : Msg) : Prop :=
  m.buf.aid < h.length ∧
  m.buf.off + m.buf.blen ≤ arenaLen h m.buf.aid ∧
  m.endd ≤ m.buf.blen

instance (h : Heap) (m : Msg) : Decidable (WFm h m) := by
  unfold WFm
  infer_instance

/-!
## The `src/cryptoe.js` (Uint8Array) message operations

`messageFromBytes(bytes, owner)` captures a typed-array view `bytes` and
a boolean `owner`; the visible window is the whole view, so
`len() = bytes.length`.
-/

/-- `cryptoe.js` message state: the captured view and the `owner` flag. -/
structure MsgU where
  buf : Buf
  owner : Bool
deriving DecidableEq, Repr

/-- `message.len()` (cryptoe.js): `bytes.length`. -/
def MsgU.len (m : MsgU) : Nat := m.buf.blen

/-- `message.slice(begin, end)` (cryptoe.js):
`if (end===undefined) end = message.len(); if (end<0) end = message.len() + end;
return messageFromBytes(bytes.subarray(begin, end), false)`.
Pure (no heap argument): `subarray` copies nothing, and the result is
always non-owning. -/
def MsgU.slice (m : MsgU) (b : Int) (e? : Option Int) : MsgU :=
  let e : Int := match e? with
    | none => (m.len : Int)
    | some e => if e < 0 then e + m.len else e
  ⟨bufSlice m.buf b e, false⟩

/-- `reallocate(newBufferSize, newArraySize)` (cryptoe.js): fresh
zero-initialised `ArrayBuffer` of size `newBufferSize`, a view
`[0, newArraySize)` on it, window bytes copied to its start
(`newBytes.set(bytes)`).  The `wrong size` guard is unreachable from
`ensureSpace`.  The `owner` flag is not touched here. -/
def MsgU.reallocate (h : Heap) (m : MsgU) (newBufferSize newArraySize : Nat) :
    Heap × MsgU :=
  let newArena := (List.range newBufferSize).map (fun i =>
    if i < m.buf.blen then (aread h m.buf.aid (m.buf.off + i)).getD 0 else 0)
  (h ++ [newArena], ⟨⟨h.length, 0, newArraySize⟩, m.owner⟩)

/-- `ensureSpace(numberOfNewBytes)` (cryptoe.js): reallocate when the
message does not own its array, or when the backing buffer lacks room
for `byteOffset + len() + numberOfNewBytes` bytes; otherwise only the
view is widened in place (`new Uint8Array(bytes.buffer, bytes.byteOffset,
newSize)`), with no copy and no allocation. -/
def MsgU.ensureSpace (h : Heap) (m : MsgU) (numberOfNewBytes : Nat) :
    Heap × MsgU :=
  let newSize := m.len + numberOfNewBytes
  if m.owner = false ∨ arenaLen h m.buf.aid < m.buf.off + newSize then
    MsgU.reallocate h ⟨m.buf, true⟩ (newSize * 2) newSize
  else
    (h, ⟨⟨m.buf.aid, m.buf.off, newSize⟩, m.owner⟩)

/-- `parseInt(c, 16)` on a single character: the digit value for a hex
digit, `NaN` (modelled by `none`) otherwise. -/
def parseHexDigit (c : Char) : Option Nat :=
  if '0' ≤ c ∧ c ≤ '9' then some (c.toNat - '0'.toNat)
  else if 'a' ≤ c ∧ c ≤ 'f' then some (c.toNat - 'a'.toNat + 10)
  else if 'A' ≤ c ∧ c ≤ 'F' then some (c.toNat - 'A'.toNat + 10)
  else none

/-- One byte of `messageFromHexString` (cryptoe.js):
`arr[i] = parseInt(str[2*i], 16)*16 + parseInt(str[2*i+1], 16)`.
If either digit is `NaN` the sum is `NaN`, and storing `NaN` into a
`Uint8Array` silently stores 0. -/
def hexByte (c1 c2 : Char) : Nat :=
  match parseHexDigit c1, parseHexDigit c2 with
  | some d1, some d2 => (d1 * 16 + d2) % 256
  | _, _ => 0

/-- `exports.messageFromHexString(str)` (cryptoe.js):
`var len = str.length/2; if (Math.floor(len)!==len) throw ...;` then the
per-pair decode loop and `messageFromBytes(arr, true)`.  The only failure
is an odd-length input; non-hex characters are decoded via `NaN`
coercion, not rejected. -/
def messageFromHexString (h : Heap) (s : List Char) : Option (Heap × MsgU) :=
  if s.length % 2 ≠ 0 then none
  else
    let n := s.length / 2
    let arr := (List.range n).map (fun i => hexByte (s.getD (2 * i) ' ') (s.getD (2 * i + 1) ' '))
    some (h ++ [arr], ⟨⟨h.length, 0, n⟩, true⟩)

/-!
## The AEAD wrapper (part_001)

`key.encrypt` and `key.decrypt` drive an external engine
(`crypto.createCipheriv("id-aes256-GCM", ...)`) and the external random
source (`cryptoe.random(12)`); only their message-building and
message-consuming structure is code of this repository.
-/

/-- Modelled from the spec: the contract of the external pieces used by
`key.encrypt` — `cryptoe.random(12)` (the fresh nonce), `cipher.update`
plus `cipher.final` (the ciphertext, in two chunks), and
`cipher.getAuthTag` (the tag).  Spec sections 4.5 and 6 fix: nonce = 12
bytes, tag = 16 bytes, ciphertext length = plaintext length (`mlen`), and
all outputs are bytes. -/
def AEADEngine (mlen : Nat) (nonce upd fin tag : List Nat) : Prop :=
  nonce.length = 12 ∧
  upd.length + fin.length = mlen ∧
  tag.length = 16 ∧
  (∀ v ∈ nonce, v < 256) ∧ (∀ v ∈ upd, v < 256) ∧
  (∀ v ∈ fin, v < 256) ∧ (∀ v ∈ tag, v < 256)

/-- `key.encrypt(message)` (part_001), with the external engine's outputs
as parameters: `encrypted = cryptoe.emptyMessage()`, then
`appendMessage(iv)`, `appendBuffer(cipher.update(...))`,
`appendBuffer(cipher.final())`, `appendBuffer(cipher.getAuthTag())`.
Each append copies the given bytes in order at the window's tail
(`Msg.appendRaw`); the sources (the fresh iv message and the
engine-returned buffers) never alias the freshly allocated `encrypted`. -/
def encrypt (h : Heap) (nonce upd fin tag : List Nat) : Heap × Msg :=
  let p0 := emptyMessage h
  let p1 := Msg.appendRaw p0.1 p0.2 nonce
  let p2 := Msg.appendRaw p1.1 p1.2 upd
  let p3 := Msg.appendRaw p2.1 p2.2 fin
  Msg.appendRaw p3.1 p3.2 tag

/-- The message-consuming steps of `key.decrypt(message)` (part_001):
`var iv = message.takeMessage(12);
var encrypted = message.takeMessage(message.len()-16);
var tag = message;` — the remainder of `decrypt` only reads these three
views (the external decipher writes into a separate fresh message), so
`tag` is the caller's message in its final state. -/
def decryptSteps (m : Msg) : Option (Msg × Msg × Msg) :=
  match m.takeMessage 12 with
  | none => none
  | some (iv, m1) =>
    match m1.takeMessage (m1.endd - 16) with
    | none => none
    | some (encrypted, m2) => some (iv, encrypted, m2)

/-!
## Helper lemmas: sequential writes
-/

theorem length_bwrite (h : Heap) (b : Buf) (i v : Nat) :
    (bwrite h b i v).length = h.length := by
  unfold bwrite
  split
  · exact length_awrite h b.aid (b.off + i) v
  · rfl

theorem arenaLen_bwrite (h : Heap) (b : Buf) (i v aid' : Nat) :
    arenaLen (bwrite h b i v) aid' = arenaLen h aid' := by
  unfold bwrite
  split
  · exact arenaLen_awrite h b.aid (b.off + i) v aid'
  · rfl

theorem aread_bwrite_ne (h : Heap) (b : Buf) (i v aid' p' : Nat)
    (hne : aid' ≠ b.aid ∨ p' ≠ b.off + i) :
    aread (bwrite h b i v) aid' p' = aread h aid' p' := by
  unfold bwrite
  split
  · exact aread_awrite_ne h b.aid (b.off + i) v aid' p' hne
  · rfl

theorem length_writeVals (vs : List Nat) : ∀ (h : Heap) (b : Buf) (i : Nat),
    (writeVals h b i vs).length = h.length := by
  induction vs with
  | nil => intro h b i; rfl
  | cons v vs ih =>
    intro h b i
    rw [writeVals, ih, length_bwrite]

theorem arenaLen_writeVals (vs : List Nat) : ∀ (h : Heap) (b : Buf) (i aid' : Nat),
    arenaLen (writeVals h b i vs) aid' = arenaLen h aid' := by
  induction vs with
  | nil => intro h b i aid'; rfl
  | cons v vs ih =>
    intro h b i aid'
    rw [writeVals, ih, arenaLen_bwrite]

/-- Writes touch only arena `b.aid` at positions `[b.off+i, b.off+i+|vs|)`. -/
theorem aread_writeVals_outside (vs : List Nat) : ∀ (h : Heap) (b : Buf) (i aid' p' : Nat),
    (aid' ≠ b.aid ∨ p' < b.off + i ∨ b.off + i + vs.length ≤ p') →
    aread (writeVals h b i vs) aid' p' = aread h aid' p' := by
  induction vs with
  | nil => intro h b i aid' p' _; rfl
  | cons v vs ih =>
    intro h b i aid' p' hcond
    rw [writeVals, ih]
    · apply aread_bwrite_ne
      rcases hcond with hc | hc | hc
      · exact Or.inl hc
      · exact Or.inr (by omega)
      · exact Or.inr (by simp at hc; omega)
    · rcases hcond with hc | hc | hc
      · exact Or.inl hc
      · exact Or.inr (Or.inl (by omega))
      · exact Or.inr (Or.inr (by simp at hc ⊢; omega))

/-- In-range writes can be read back. -/
theorem aread_writeVals_inside (vs : List Nat) : ∀ (h : Heap) (b : Buf) (i j : Nat),
    b.off + b.blen ≤ arenaLen h b.aid →
    j < vs.length → i + j < b.blen →
    aread (writeVals h b i vs) b.aid (b.off + i + j) = some (vs.getD j 0 % 256) := by
  induction vs with
  | nil => intro h b i j _ hj _; simp at hj
  | cons v vs ih =>
    intro h b i j hcap hj hrange
    rw [writeVals]
    cases j with
    | zero =>
      rw [aread_writeVals_outside vs _ _ _ _ _ (Or.inr (Or.inl (by omega)))]
      have hib : i < b.blen := by omega
      unfold bwrite
      rw [if_pos hib]
      simpa using aread_awrite_self h b.aid (b.off + i) v (by omega)
    | succ j =>
      have := ih (bwrite h b i v) b (i + 1) j
        (by rw [arenaLen_bwrite]; exact hcap)
        (by simpa using hj) (by omega)
      have harith : b.off + (i + 1) + j = b.off + i + (j + 1) := by omega
      rw [harith] at this
      simpa using this


/-!
## Helper lemmas: the append step
-/

/-- The arena allocated by `reallocate` when called from `enlargeBy`. -/
def growArena (h : Heap) (m : Msg) (k : Nat) : List Nat :=
  (List.range ((m.endd + k) * 2)).map (fun i =>
    if i < min m.endd m.buf.blen then (readByte h m.buf i).getD 0 else 0)

theorem appendRaw_eq_grow (h : Heap) (m : Msg) (vs : List Nat)
    (hg : m.buf.blen < m.endd + vs.length) :
    m.appendRaw h vs =
      (writeVals (h ++ [growArena h m vs.length])
         ⟨h.length, 0, (m.endd + vs.length) * 2⟩ m.endd vs,
       ⟨⟨h.length, 0, (m.endd + vs.length) * 2⟩, m.endd + vs.length⟩) := by
  simp [Msg.appendRaw, Msg.enlargeBy, Msg.reallocate, growArena, hg]

theorem appendRaw_eq_fit (h : Heap) (m : Msg) (vs : List Nat)
    (hg : ¬ m.buf.blen < m.endd + vs.length) :
    m.appendRaw h vs =
      (writeVals h m.buf m.endd vs, ⟨m.buf, m.endd + vs.length⟩) := by
  simp [Msg.appendRaw, Msg.enlargeBy, hg]

theorem appendRaw_endd (h : Heap) (m : Msg) (vs : List Nat) :
    (m.appendRaw h vs).2.endd = m.endd + vs.length := by
  by_cases hg : m.buf.blen < m.endd + vs.length
  · rw [appendRaw_eq_grow h m vs hg]
  · rw [appendRaw_eq_fit h m vs hg]

theorem length_growArena (h : Heap) (m : Msg) (k : Nat) :
    (growArena h m k).length = (m.endd + k) * 2 := by
  simp [growArena]

theorem appendRaw_WF (h : Heap) (m : Msg) (vs : List Nat) (hwf : WFm h m) :
    WFm (m.appendRaw h vs).1 (m.appendRaw h vs).2 := by
  obtain ⟨ha, hc, he⟩ := hwf
  by_cases hg : m.buf.blen < m.endd + vs.length
  · rw [appendRaw_eq_grow h m vs hg]
    unfold WFm
    dsimp only
    refine ⟨?_, ?_, by omega⟩
    · rw [length_writeVals]
      simp
    · rw [arenaLen_writeVals, arenaLen_append_new, length_growArena]
      omega
  · rw [appendRaw_eq_fit h m vs hg]
    unfold WFm
    dsimp only
    refine ⟨?_, ?_, by omega⟩
    · rw [length_writeVals]
      exact ha
    · rw [arenaLen_writeVals]
      exact hc

/-- An append to one message preserves well-formedness of any message
that was already well-formed (it neither shrinks the heap nor any
existing arena). -/
theorem appendRaw_WF_other (h : Heap) (m x : Msg) (vs : List Nat) (hwx : WFm h x) :
    WFm (m.appendRaw h vs).1 x := by
  obtain ⟨ha, hc, he⟩ := hwx
  by_cases hg : m.buf.blen < m.endd + vs.length
  · rw [appendRaw_eq_grow h m vs hg]
    unfold WFm
    dsimp only
    refine ⟨?_, ?_, he⟩
    · rw [length_writeVals]
      simp
      omega
    · rw [arenaLen_writeVals, arenaLen_append_lt _ _ _ ha]
      exact hc
  · rw [appendRaw_eq_fit h m vs hg]
    unfold WFm
    dsimp only
    refine ⟨by rw [length_writeVals]; exact ha, ?_, he⟩
    rw [arenaLen_writeVals]
    exact hc

/-- Reading back the appended bytes. -/
theorem appendRaw_read_new (h : Heap) (m : Msg) (vs : List Nat) (hwf : WFm h m)
    (j : Nat) (hj : j < vs.length) :
    readByte (m.appendRaw h vs).1 (m.appendRaw h vs).2.buf (m.endd + j) =
      some (vs.getD j 0 % 256) := by
  obtain ⟨ha, hc, he⟩ := hwf
  by_cases hg : m.buf.blen < m.endd + vs.length
  · rw [appendRaw_eq_grow h m vs hg]
    show readByte _ ⟨h.length, 0, (m.endd + vs.length) * 2⟩ _ = _
    unfold readByte
    rw [if_pos (show m.endd + j < (Buf.mk h.length 0 ((m.endd + vs.length) * 2)).blen
      by show m.endd + j < (m.endd + vs.length) * 2; omega)]
    have hcap : (Buf.mk h.length 0 ((m.endd + vs.length) * 2)).off +
        (Buf.mk h.length 0 ((m.endd + vs.length) * 2)).blen ≤
        arenaLen (h ++ [growArena h m vs.length])
          (Buf.mk h.length 0 ((m.endd + vs.length) * 2)).aid := by
      show 0 + (m.endd + vs.length) * 2 ≤ arenaLen (h ++ [growArena h m vs.length]) h.length
      rw [arenaLen_append_new, length_growArena]
      omega
    have := aread_writeVals_inside vs (h ++ [growArena h m vs.length])
      ⟨h.length, 0, (m.endd + vs.length) * 2⟩ m.endd j hcap hj
      (show m.endd + j < (m.endd + vs.length) * 2 by omega)
    have harith : (Buf.mk h.length 0 ((m.endd + vs.length) * 2)).off + m.endd + j =
        (Buf.mk h.length 0 ((m.endd + vs.length) * 2)).off + (m.endd + j) := by omega
    rw [harith] at this
    exact this
  · rw [appendRaw_eq_fit h m vs hg]
    show readByte _ m.buf _ = _
    unfold readByte
    rw [if_pos (show m.endd + j < m.buf.blen by omega)]
    have := aread_writeVals_inside vs h m.buf m.endd j hc hj (by omega)
    have harith : m.buf.off + m.endd + j = m.buf.off + (m.endd + j) := by omega
    rw [harith] at this
    exact this

/-- The bytes already in the window are unchanged by the append. -/
theorem appendRaw_read_old (h : Heap) (m : Msg) (vs : List Nat) (hwf : WFm h m)
    (i : Nat) (hi : i < m.endd) :
    readByte (m.appendRaw h vs).1 (m.appendRaw h vs).2.buf i = readByte h m.buf i := by
  obtain ⟨ha, hc, he⟩ := hwf
  by_cases hg : m.buf.blen < m.endd + vs.length
  · rw [appendRaw_eq_grow h m vs hg]
    show readByte _ ⟨h.length, 0, (m.endd + vs.length) * 2⟩ _ = _
    unfold readByte
    rw [if_pos (show i < (Buf.mk h.length 0 ((m.endd + vs.length) * 2)).blen
        by show i < (m.endd + vs.length) * 2; omega),
      if_pos (show i < m.buf.blen by omega)]
    rw [aread_writeVals_outside vs (h ++ [growArena h m vs.length])
      ⟨h.length, 0, (m.endd + vs.length) * 2⟩ m.endd
      (Buf.mk h.length 0 ((m.endd + vs.length) * 2)).aid
      ((Buf.mk h.length 0 ((m.endd + vs.length) * 2)).off + i)
      (Or.inr (Or.inl (show (Buf.mk h.length 0 ((m.endd + vs.length) * 2)).off + i <
        (Buf.mk h.length 0 ((m.endd + vs.length) * 2)).off + m.endd by
          show 0 + i < 0 + m.endd; omega)))]
    show aread (h ++ [growArena h m vs.length]) h.length (0 + i) = _
    rw [Nat.zero_add, aread_append_new]
    have hlenA : i < (growArena h m vs.length).length := by
      rw [length_growArena]; omega
    rw [List.getElem?_eq_getElem hlenA]
    simp only [growArena, List.getElem_map, List.getElem_range]
    rw [if_pos (by omega)]
    obtain ⟨w, hw⟩ : ∃ w, aread h m.buf.aid (m.buf.off + i) = some w :=
      ⟨_, List.getElem?_eq_getElem (show m.buf.off + i < (arena h m.buf.aid).length by
        show m.buf.off + i < arenaLen h m.buf.aid; omega)⟩
    unfold readByte
    rw [if_pos (show i < m.buf.blen by omega), hw]
    rfl
  · rw [appendRaw_eq_fit h m vs hg]
    show readByte _ m.buf _ = _
    unfold readByte
    rw [if_pos (show i < m.buf.blen by omega), if_pos (show i < m.buf.blen by omega)]
    exact aread_writeVals_outside vs h m.buf m.endd m.buf.aid (m.buf.off + i)
      (Or.inr (Or.inl (by omega)))

theorem visible_length (h : Heap) (m : Msg) : (visible h m).length = m.endd := by
  simp [visible]

theorem visible_getElem (h : Heap) (m : Msg) (i : Nat) :
    (visible h m)[i]? = if i < m.endd then some (readByte h m.buf i) else none := by
  unfold visible
  by_cases hi : i < m.endd
  · rw [if_pos hi, List.getElem?_map, List.getElem?_range hi]
    rfl
  · rw [if_neg hi]
    apply List.getElem?_eq_none
    simp
    omega

/-- The visible bytes after an append: the old window followed by the
appended values, each coerced to 8 bits. -/
theorem appendRaw_visible (h : Heap) (m : Msg) (vs : List Nat) (hwf : WFm h m) :
    visible (m.appendRaw h vs).1 (m.appendRaw h vs).2 =
      visible h m ++ vs.map (fun v => some (v % 256)) := by
  apply List.ext_getElem?
  intro i
  rw [visible_getElem]
  by_cases hi : i < m.endd
  · rw [List.getElem?_append_left (by rw [visible_length]; exact hi), visible_getElem,
      if_pos hi, if_pos (by rw [appendRaw_endd]; omega)]
    rw [appendRaw_read_old h m vs hwf i hi]
  · by_cases hi2 : i < m.endd + vs.length
    · rw [if_pos (by rw [appendRaw_endd]; omega)]
      rw [List.getElem?_append_right (by rw [visible_length]; omega), visible_length,
        List.getElem?_map]
      have hj : i - m.endd < vs.length := by omega
      rw [List.getElem?_eq_getElem hj]
      have hread := appendRaw_read_new h m vs hwf (i - m.endd) hj
      have harith : m.endd + (i - m.endd) = i := by omega
      rw [harith] at hread
      rw [hread]
      simp [List.getD_eq_getElem?_getD, List.getElem?_eq_getElem hj]
    · rw [if_neg (by rw [appendRaw_endd]; omega)]
      symm
      apply List.getElem?_eq_none
      rw [List.length_append, visible_length, List.length_map]
      omega

/-!
## Helper lemmas: skip
-/

theorem skip_endd (m : Msg) (n : Nat) : (m.skip n).endd = m.endd - n := by
  simp [Msg.skip]
  omega

theorem jsIdx_natCast (blen x : Nat) : jsIdx blen ((x : Nat) : Int) = min x blen := by
  unfold jsIdx
  rw [if_neg (by omega)]
  omega

theorem skip_buf (m : Msg) (n : Nat) :
    (m.skip n).buf = ⟨m.buf.aid, m.buf.off + min (min n m.endd) m.buf.blen,
      m.buf.blen - min (min n m.endd) m.buf.blen⟩ := by
  show bufSlice m.buf (min n m.endd : Nat) (m.buf.blen : Nat) = _
  unfold bufSlice
  rw [jsIdx_natCast, jsIdx_natCast]
  simp only [Buf.mk.injEq]
  refine ⟨trivial, trivial, by omega⟩

theorem skip_readByte (h : Heap) (m : Msg) (n i : Nat) :
    readByte h (m.skip n).buf i = readByte h m.buf (min n m.endd + i) := by
  rw [skip_buf]
  unfold readByte
  by_cases hcase : min n m.endd ≤ m.buf.blen
  · have hmm : min (min n m.endd) m.buf.blen = min n m.endd := by omega
    rw [hmm]
    by_cases hib : i < m.buf.blen - min n m.endd
    · rw [if_pos hib, if_pos (by omega)]
      show aread h m.buf.aid (m.buf.off + min n m.endd + i) = _
      congr 1
      omega
    · rw [if_neg hib, if_neg (by omega)]
  · have hmm : min (min n m.endd) m.buf.blen = m.buf.blen := by omega
    rw [hmm]
    rw [if_neg (by simp), if_neg (by omega)]

theorem visible_skip (h : Heap) (m : Msg) (n : Nat) :
    visible h (m.skip n) = (visible h m).drop (min n m.endd) := by
  apply List.ext_getElem?
  intro i
  rw [List.getElem?_drop, visible_getElem, visible_getElem, skip_endd]
  by_cases hi : i < m.endd - n
  · rw [if_pos hi, if_pos (by omega), skip_readByte]
  · rw [if_neg hi, if_neg (by omega)]

/-!
## Helper lemmas: separation of aliased messages

The invariant behind slice non-interference: two messages may share an
arena only while at least one of them is a *tight* view (its view ends
exactly at its window's end, as a fresh clone's does) whose window
wfront does not extend past the other's write wfront.  A tight
message cannot append in place, so it reallocates away on its first real
append; a non-tight sharer writes only at or beyond its own wfront,
which lies at or beyond the other's window end.
-/

/-- The view ends exactly at the window's end: no spare capacity, as for
a clone (`bytes.slice(0, end)` has length exactly `end`). -/
def Tight (m : Msg) : Prop := m.buf.blen = m.endd

/-- The arena position one past the window: where in-place appends write. -/
def wfront (m : Msg) : Nat := m.buf.off + m.endd

/-- Separation of two (possibly aliasing) messages. -/
def MSep (h : Heap) (a b : Msg) : Prop :=
  WFm h a ∧ WFm h b ∧
  (a.buf.aid ≠ b.buf.aid ∨
    (Tight a ∧ wfront a ≤ wfront b) ∨
    (Tight b ∧ wfront b ≤ wfront a))

theorem MSep_symm (h : Heap) (a b : Msg) (hsep : MSep h a b) : MSep h b a := by
  obtain ⟨hwa, hwb, hd⟩ := hsep
  refine ⟨hwb, hwa, ?_⟩
  rcases hd with hd | hd | hd
  · exact Or.inl (Ne.symm hd)
  · exact Or.inr (Or.inr hd)
  · exact Or.inr (Or.inl hd)

theorem clone_buf (m : Msg) (hwf_e : m.endd ≤ m.buf.blen) :
    m.clone.buf = ⟨m.buf.aid, m.buf.off, m.endd⟩ ∧ m.clone.endd = m.endd := by
  unfold Msg.clone Msg.slice
  dsimp only
  constructor
  · show bufSlice m.buf 0 (m.endd : Nat) = _
    unfold bufSlice
    rw [show (0 : Int) = ((0 : Nat) : Int) by rfl, jsIdx_natCast, jsIdx_natCast]
    simp only [Buf.mk.injEq]
    refine ⟨trivial, by omega, by omega⟩
  · show ((m.endd : Nat) : Int).toNat = m.endd
    omega

/-- A clone is separated from its original. -/
theorem MSep_clone (h : Heap) (m : Msg) (hwf : WFm h m) : MSep h m.clone m := by
  obtain ⟨ha, hc, he⟩ := hwf
  obtain ⟨hbuf, hendd⟩ := clone_buf m he
  refine ⟨⟨?_, ?_, ?_⟩, ⟨ha, hc, he⟩, ?_⟩
  · rw [hbuf]; exact ha
  · rw [hbuf]
    show m.buf.off + m.endd ≤ arenaLen h m.buf.aid
    omega
  · rw [hbuf, hendd]
  · refine Or.inr (Or.inl ⟨?_, ?_⟩)
    · unfold Tight
      rw [hbuf, hendd]
    · unfold wfront
      rw [hbuf, hendd]

/-- The key step: appending to `a` preserves separation from `b` and does
not change `b`'s visible bytes. -/
theorem appendRaw_sep (h : Heap) (a b : Msg) (vs : List Nat) (hsep : MSep h a b) :
    MSep (a.appendRaw h vs).1 (a.appendRaw h vs).2 b ∧
    visible (a.appendRaw h vs).1 b = visible h b := by
  obtain ⟨hwa, hwb, hd⟩ := hsep
  have hwa' := appendRaw_WF h a vs hwa
  have hwb' := appendRaw_WF_other h a b vs hwb
  by_cases hg : a.buf.blen < a.endd + vs.length
  · -- reallocation: `a` moves to a fresh arena; `b`'s arena is untouched
    have hbread : ∀ i, readByte (a.appendRaw h vs).1 b.buf i = readByte h b.buf i := by
      intro i
      rw [appendRaw_eq_grow h a vs hg]
      unfold readByte
      by_cases hib : i < b.buf.blen
      · rw [if_pos hib, if_pos hib]
        rw [aread_writeVals_outside vs (h ++ [growArena h a vs.length])
          ⟨h.length, 0, (a.endd + vs.length) * 2⟩ a.endd b.buf.aid (b.buf.off + i)
          (Or.inl (show b.buf.aid ≠ (Buf.mk h.length 0 ((a.endd + vs.length) * 2)).aid by
            show b.buf.aid ≠ h.length
            have hb1 := hwb.1
            omega))]
        exact aread_append_lt h _ _ _ hwb.1
      · rw [if_neg hib, if_neg hib]
    refine ⟨⟨hwa', hwb', ?_⟩, ?_⟩
    · left
      rw [appendRaw_eq_grow h a vs hg]
      show h.length ≠ b.buf.aid
      have hb1 := hwb.1
      omega
    · unfold visible
      exact List.map_congr_left (fun i _ => hbread i)
  · -- in-place: writes land at or beyond `a`'s wfront
    have hbuf' : (a.appendRaw h vs).2.buf = a.buf := by
      rw [appendRaw_eq_fit h a vs hg]
    have hendd' : (a.appendRaw h vs).2.endd = a.endd + vs.length :=
      appendRaw_endd h a vs
    rcases hd with hd | hd | hd
    · -- different arenas already
      have hbread : ∀ i, readByte (a.appendRaw h vs).1 b.buf i = readByte h b.buf i := by
        intro i
        rw [appendRaw_eq_fit h a vs hg]
        unfold readByte
        by_cases hib : i < b.buf.blen
        · rw [if_pos hib, if_pos hib]
          exact aread_writeVals_outside vs h a.buf a.endd b.buf.aid (b.buf.off + i)
            (Or.inl (Ne.symm hd))
        · rw [if_neg hib, if_neg hib]
      refine ⟨⟨hwa', hwb', Or.inl (by rw [hbuf']; exact hd)⟩, ?_⟩
      unfold visible
      exact List.map_congr_left (fun i _ => hbread i)
    · -- `a` tight: no spare capacity, so an in-place append writes nothing
      obtain ⟨hta, hfa⟩ := hd
      have hvs : vs.length = 0 := by
        unfold Tight at hta
        omega
      have hvsnil : vs = [] := List.length_eq_zero.mp hvs
      subst hvsnil
      have heq : a.appendRaw h [] = (h, ⟨a.buf, a.endd⟩) := by
        rw [appendRaw_eq_fit h a [] hg]
        simp [writeVals]
      rw [heq]
      refine ⟨⟨?_, hwb, ?_⟩, rfl⟩
      · exact ⟨hwa.1, hwa.2.1, hwa.2.2⟩
      · exact Or.inr (Or.inl ⟨hta, hfa⟩)
    · -- `b` tight with wfront at or before `a`'s: writes stay past `b`'s window
      obtain ⟨htb, hfb⟩ := hd
      have hbread : ∀ i, readByte (a.appendRaw h vs).1 b.buf i = readByte h b.buf i := by
        intro i
        rw [appendRaw_eq_fit h a vs hg]
        unfold readByte
        by_cases hib : i < b.buf.blen
        · rw [if_pos hib, if_pos hib]
          apply aread_writeVals_outside vs h a.buf a.endd b.buf.aid (b.buf.off + i)
          right; left
          unfold Tight at htb
          unfold wfront at hfb
          omega
        · rw [if_neg hib, if_neg hib]
      refine ⟨⟨hwa', hwb', ?_⟩, ?_⟩
      · refine Or.inr (Or.inr ⟨htb, ?_⟩)
        unfold wfront
        rw [hbuf', hendd']
        unfold wfront at hfb
        omega
      · unfold visible
        exact List.map_congr_left (fun i _ => hbread i)

/-- One step of the interleaved append scenario: `op = (side, vals)`
appends the byte values `vals` to the first message (`side = true`) or to
the second (`side = false`). -/
def applyOp (st : Heap × Msg × Msg) (op : Bool × List Nat) : Heap × Msg × Msg :=
  if op.1 then
    let p := Msg.appendRaw st.1 st.2.1 op.2
    (p.1, p.2, st.2.2)
  else
    let p := Msg.appendRaw st.1 st.2.2 op.2
    (p.1, st.2.1, p.2)

/-- Run a sequence of interleaved appends. -/
def runOps (st : Heap × Msg × Msg) (ops : List (Bool × List Nat)) : Heap × Msg × Msg :=
  ops.foldl applyOp st

theorem MSep_applyOp (st : Heap × Msg × Msg) (op : Bool × List Nat)
    (hsep : MSep st.1 st.2.1 st.2.2) :
    MSep (applyOp st op).1 (applyOp st op).2.1 (applyOp st op).2.2 := by
  unfold applyOp
  by_cases hside : op.1
  · rw [if_pos hside]
    exact (appendRaw_sep st.1 st.2.1 st.2.2 op.2 hsep).1
  · rw [if_neg hside]
    exact MSep_symm _ _ _ (appendRaw_sep st.1 st.2.2 st.2.1 op.2 (MSep_symm _ _ _ hsep)).1

theorem MSep_runOps (ops : List (Bool × List Nat)) : ∀ (st : Heap × Msg × Msg),
    MSep st.1 st.2.1 st.2.2 →
    MSep (runOps st ops).1 (runOps st ops).2.1 (runOps st ops).2.2 := by
  induction ops with
  | nil => intro st hsep; exact hsep
  | cons op ops ih =>
    intro st hsep
    exact ih (applyOp st op) (MSep_applyOp st op hsep)

/-!
## Claim theorems
-/

/-- Claim C1: for every message `m0` and its clone `m1 = m0.clone()`
(which the source defines as `m0.slice(0)`), any subsequent sequence of
append operations performed on either of the two messages never changes
the visible bytes of the other, regardless of how many reallocations
occur on either side.  Append operations are modelled by their common
shape `Msg.appendRaw` (reserve `k` bytes via `enlargeBy`, then write `k`
byte values at the old window end); an interleaving is a list of
`(side, values)` steps, and the theorem states that each step leaves the
other message's visible bytes (hence also its length) unchanged at every
point of the sequence. -/
theorem c1_clone_append_noninterference (h : Heap) (m0 : Msg) (hwf : WFm h m0)
    (ops : List (Bool × List Nat)) (side : Bool) (vs : List Nat) :
    (side = true →
      visible (applyOp (runOps (h, m0, m0.clone) ops) (side, vs)).1
          (applyOp (runOps (h, m0, m0.clone) ops) (side, vs)).2.2 =
        visible (runOps (h, m0, m0.clone) ops).1 (runOps (h, m0, m0.clone) ops).2.2) ∧
    (side = false →
      visible (applyOp (runOps (h, m0, m0.clone) ops) (side, vs)).1
          (applyOp (runOps (h, m0, m0.clone) ops) (side, vs)).2.1 =
        visible (runOps (h, m0, m0.clone) ops).1 (runOps (h, m0, m0.clone) ops).2.1) := by
  have hsep0 : MSep h m0 m0.clone := MSep_symm _ _ _ (MSep_clone h m0 hwf)
  have hsep := MSep_runOps ops (h, m0, m0.clone) hsep0
  constructor
  · intro hside
    subst hside
    have hpres := (appendRaw_sep (runOps (h, m0, m0.clone) ops).1
      (runOps (h, m0, m0.clone) ops).2.1 (runOps (h, m0, m0.clone) ops).2.2 vs hsep).2
    simpa [applyOp] using hpres
  · intro hside
    subst hside
    have hpres := (appendRaw_sep (runOps (h, m0, m0.clone) ops).1
      (runOps (h, m0, m0.clone) ops).2.2 (runOps (h, m0, m0.clone) ops).2.1 vs
      (MSep_symm _ _ _ hsep)).2
    simpa [applyOp] using hpres

/-- Witness for C1 at a concrete input: a 2-byte message in a 4-byte
buffer, an interleaving that makes both sides append (forcing the clone
to reallocate), and one further append to the clone. -/
theorem c1_witness :
    WFm [[1, 2, 3, 4]] ⟨⟨0, 0, 4⟩, 2⟩ ∧
    ((false = true →
      visible (applyOp (runOps ([[1, 2, 3, 4]], ⟨⟨0, 0, 4⟩, 2⟩,
            Msg.clone ⟨⟨0, 0, 4⟩, 2⟩) [(true, [7, 8]), (false, [9])]) (false, [5])).1
          (applyOp (runOps ([[1, 2, 3, 4]], ⟨⟨0, 0, 4⟩, 2⟩,
            Msg.clone ⟨⟨0, 0, 4⟩, 2⟩) [(true, [7, 8]), (false, [9])]) (false, [5])).2.2 =
        visible (runOps ([[1, 2, 3, 4]], ⟨⟨0, 0, 4⟩, 2⟩,
            Msg.clone ⟨⟨0, 0, 4⟩, 2⟩) [(true, [7, 8]), (false, [9])]).1
          (runOps ([[1, 2, 3, 4]], ⟨⟨0, 0, 4⟩, 2⟩,
            Msg.clone ⟨⟨0, 0, 4⟩, 2⟩) [(true, [7, 8]), (false, [9])]).2.2) ∧
    (false = false →
      visible (applyOp (runOps ([[1, 2, 3, 4]], ⟨⟨0, 0, 4⟩, 2⟩,
            Msg.clone ⟨⟨0, 0, 4⟩, 2⟩) [(true, [7, 8]), (false, [9])]) (false, [5])).1
          (applyOp (runOps ([[1, 2, 3, 4]], ⟨⟨0, 0, 4⟩, 2⟩,
            Msg.clone ⟨⟨0, 0, 4⟩, 2⟩) [(true, [7, 8]), (false, [9])]) (false, [5])).2.1 =
        visible (runOps ([[1, 2, 3, 4]], ⟨⟨0, 0, 4⟩, 2⟩,
            Msg.clone ⟨⟨0, 0, 4⟩, 2⟩) [(true, [7, 8]), (false, [9])]).1
          (runOps ([[1, 2, 3, 4]], ⟨⟨0, 0, 4⟩, 2⟩,
            Msg.clone ⟨⟨0, 0, 4⟩, 2⟩) [(true, [7, 8]), (false, [9])]).2.1)) :=
  ⟨by decide,
   c1_clone_append_noninterference [[1, 2, 3, 4]] ⟨⟨0, 0, 4⟩, 2⟩ (by decide)
     [(true, [7, 8]), (false, [9])] false [5]⟩

/-- Claim C9: for every message `m` and every `n ≥ 0`, `m.skip(n)`
advances the window's start by `min(n, m.len())` — skipping past the
current length silently clamps to emptying the message instead of raising
an error — so afterwards `m.len()` equals `max(0, old len - n)`
(truncated subtraction below) and the remaining bytes are the old window
with its first `min(n, old length)` bytes removed. -/
theorem c9_skip_clamps (h : Heap) (m : Msg) (n : Nat) (hwf : m.endd ≤ m.buf.blen) :
    (m.skip n).endd = m.endd - n ∧
    visible h (m.skip n) = (visible h m).drop (min n m.endd) ∧
    (m.skip n).buf.off = m.buf.off + min n m.endd := by
  refine ⟨skip_endd m n, visible_skip h m n, ?_⟩
  rw [skip_buf]
  show m.buf.off + min (min n m.endd) m.buf.blen = m.buf.off + min n m.endd
  omega

/-- Witness for C9 at a concrete input: skipping 5 bytes of a 3-byte
message clamps to emptying it. -/
theorem c9_witness :
    (⟨⟨0, 0, 3⟩, 3⟩ : Msg).endd ≤ (⟨⟨0, 0, 3⟩, 3⟩ : Msg).buf.blen ∧
    ((Msg.skip ⟨⟨0, 0, 3⟩, 3⟩ 5).endd = (3 : Nat) - 5 ∧
     visible [[10, 20, 30]] (Msg.skip ⟨⟨0, 0, 3⟩, 3⟩ 5) =
       (visible [[10, 20, 30]] ⟨⟨0, 0, 3⟩, 3⟩).drop (min 5 3) ∧
     (Msg.skip ⟨⟨0, 0, 3⟩, 3⟩ 5).buf.off = 0 + min 5 3) :=
  ⟨by decide, c9_skip_clamps [[10, 20, 30]] ⟨⟨0, 0, 3⟩, 3⟩ 5 (by decide)⟩

/-- Claim C10: `decrypt` consumes its input by advancing the caller's
message.  For any packed message of length at least 28 (as every
`encrypt` output is), the take steps of `decrypt` succeed and leave the
caller's message viewing exactly the final 16 bytes — the authentication
tag — of the original window. -/
theorem c10_decrypt_consumes_input (h : Heap) (m : Msg) (hlen : 28 ≤ m.endd) :
    ∃ iv encrypted tag, decryptSteps m = some (iv, encrypted, tag) ∧
      tag.endd = 16 ∧
      visible h tag = (visible h m).drop (m.endd - 16) := by
  unfold decryptSteps Msg.takeMessage
  rw [if_neg (show ¬ m.endd < 12 by omega)]
  dsimp only
  rw [if_neg (show ¬ (m.skip 12).endd < (m.skip 12).endd - 16 by omega)]
  dsimp only
  refine ⟨_, _, _, rfl, ?_, ?_⟩
  · rw [skip_endd, skip_endd]
    omega
  · rw [visible_skip, visible_skip, List.drop_drop]
    congr 1
    rw [skip_endd]
    omega

/-- Witness for C10 at a concrete input: a 28-byte packed message; after
the take steps the caller's message has length 16. -/
theorem c10_witness :
    28 ≤ (⟨⟨0, 0, 28⟩, 28⟩ : Msg).endd ∧
    (∃ iv encrypted tag,
      decryptSteps ⟨⟨0, 0, 28⟩, 28⟩ = some (iv, encrypted, tag) ∧
      tag.endd = 16 ∧
      visible [List.replicate 28 9] tag =
        (visible [List.replicate 28 9] ⟨⟨0, 0, 28⟩, 28⟩).drop (28 - 16)) :=
  ⟨by decide, c10_decrypt_consumes_input [List.replicate 28 9] ⟨⟨0, 0, 28⟩, 28⟩ (by decide)⟩

theorem msg_slice_nat (p : Msg) (a e : Nat) (ha : a ≤ p.buf.blen) (he : e ≤ p.buf.blen) :
    p.slice (a : Int) (some (e : Int)) = ⟨⟨p.buf.aid, p.buf.off + a, e - a⟩, e⟩ := by
  unfold Msg.slice
  dsimp only
  rw [if_neg (show ¬ ((e : Nat) : Int) < 0 by omega)]
  unfold bufSlice
  rw [jsIdx_natCast, jsIdx_natCast]
  simp only [Msg.mk.injEq, Buf.mk.injEq]
  refine ⟨⟨trivial, by omega, by omega⟩, by omega⟩

theorem msgu_slice_nat (m : MsgU) (a e : Nat) (ha : a ≤ m.buf.blen) (he : e ≤ m.buf.blen) :
    m.slice (a : Int) (some (e : Int)) = ⟨⟨m.buf.aid, m.buf.off + a, e - a⟩, false⟩ := by
  unfold MsgU.slice
  dsimp only
  rw [if_neg (show ¬ ((e : Nat) : Int) < 0 by omega)]
  unfold bufSlice
  rw [jsIdx_natCast, jsIdx_natCast]
  simp only [MsgU.mk.injEq, Buf.mk.injEq]
  refine ⟨⟨trivial, by omega, by omega⟩, trivial⟩

/-- Counterexample for C2: the Buffer implementation (part_001) passes
the resolved end index `b`, not `b - a`, as the new message's `end`:
on a 3-byte message (window `[0x00, 0x11, 0x22]`), `slice(1, 3)` reports
length 3, not `3 - 1 = 2` as the claim requires. -/
theorem c2_counterexample :
    ¬ (Msg.slice ⟨⟨0, 0, 3⟩, 3⟩ 1 (some 3)).len = 3 - 1 := by decide

/-- Claim C2 (amended): `end` resolution (`undefined` means `len()`,
negative means `end + len()`, provided that stays nonnegative) holds in
both revisions; in the Uint8Array implementation (src/cryptoe.js), for
resolved bounds `0 ≤ begin ≤ end ≤ len()` the slice is a new non-owning
message of length `end - begin` whose `i`-th byte is the original's
`(begin+i)`-th byte, on the same arena at offset `begin` with no copy
(the operation takes no heap and allocates nothing); invalid resolved
bounds are silently clamped by `subarray`, never an `OutOfRange` failure.
In the Buffer implementation (part_001) the sliced view is the same but
the reported length of `slice(begin, end)` is `end`, not `end - begin`. -/
theorem c2_amended_slice_semantics :
    (∀ (m : MsgU) (bg ev : Nat), bg ≤ ev → ev ≤ m.len →
      (m.slice (bg : Int) (some (ev : Int))).owner = false ∧
      (m.slice (bg : Int) (some (ev : Int))).len = ev - bg ∧
      (m.slice (bg : Int) (some (ev : Int))).buf.aid = m.buf.aid ∧
      (m.slice (bg : Int) (some (ev : Int))).buf.off = m.buf.off + bg ∧
      (∀ (h : Heap) (i : Nat), i < ev - bg →
        readByte h (m.slice (bg : Int) (some (ev : Int))).buf i =
          readByte h m.buf (bg + i))) ∧
    (∀ (m : MsgU) (b : Int), m.slice b none = m.slice b (some (m.len : Int))) ∧
    (∀ (m : MsgU) (b e : Int), e < 0 → 0 ≤ e + m.len →
      m.slice b (some e) = m.slice b (some (e + m.len))) ∧
    (∀ (h : Heap) (p : Msg) (a e : Nat), a ≤ e → e ≤ p.endd → p.endd ≤ p.buf.blen →
      (p.slice (a : Int) (some (e : Int))).endd = e ∧
      (∀ i, i < e - a →
        readByte h (p.slice (a : Int) (some (e : Int))).buf i =
          readByte h p.buf (a + i))) := by
  refine ⟨?_, ?_, ?_, ?_⟩
  · intro m bg ev hbe hev
    have hev' : ev ≤ m.buf.blen := hev
    have hb : bg ≤ m.buf.blen := le_trans hbe hev'
    rw [msgu_slice_nat m bg ev hb hev']
    refine ⟨rfl, rfl, rfl, rfl, ?_⟩
    intro h i hi
    unfold readByte
    rw [if_pos (show i < (Buf.mk m.buf.aid (m.buf.off + bg) (ev - bg)).blen from hi),
      if_pos (show bg + i < m.buf.blen by show bg + i < m.buf.blen; omega)]
    show aread h m.buf.aid (m.buf.off + bg + i) = aread h m.buf.aid (m.buf.off + (bg + i))
    congr 1
    omega
  · intro m b
    unfold MsgU.slice
    dsimp only
    rw [if_neg (show ¬ ((m.len : Nat) : Int) < 0 by omega)]
  · intro m b e he hnn
    unfold MsgU.slice
    dsimp only
    rw [if_pos he, if_neg (by omega)]
  · intro h p a e hae hee hwfe
    have ha : a ≤ p.buf.blen := by omega
    have he : e ≤ p.buf.blen := by omega
    rw [msg_slice_nat p a e ha he]
    refine ⟨rfl, ?_⟩
    intro i hi
    unfold readByte
    rw [if_pos (show i < (Buf.mk p.buf.aid (p.buf.off + a) (e - a)).blen from hi),
      if_pos (show a + i < p.buf.blen by omega)]
    show aread h p.buf.aid (p.buf.off + a + i) = aread h p.buf.aid (p.buf.off + (a + i))
    congr 1
    omega

/-- Witness for C2 at a concrete input: slicing `[1, 2)` out of a 3-byte
Uint8Array message yields a non-owning length-1 view at offset 1. -/
theorem c2_witness :
    (1 : Nat) ≤ 2 ∧ (2 : Nat) ≤ MsgU.len ⟨⟨0, 0, 3⟩, true⟩ ∧
    ((MsgU.slice ⟨⟨0, 0, 3⟩, true⟩ (1 : Nat) (some ((2 : Nat) : Int))).owner = false ∧
     (MsgU.slice ⟨⟨0, 0, 3⟩, true⟩ (1 : Nat) (some ((2 : Nat) : Int))).len = 2 - 1 ∧
     (MsgU.slice ⟨⟨0, 0, 3⟩, true⟩ (1 : Nat) (some ((2 : Nat) : Int))).buf.aid =
       (⟨⟨0, 0, 3⟩, true⟩ : MsgU).buf.aid ∧
     (MsgU.slice ⟨⟨0, 0, 3⟩, true⟩ (1 : Nat) (some ((2 : Nat) : Int))).buf.off =
       (⟨⟨0, 0, 3⟩, true⟩ : MsgU).buf.off + 1 ∧
     (∀ (h : Heap) (i : Nat), i < 2 - 1 →
       readByte h (MsgU.slice ⟨⟨0, 0, 3⟩, true⟩ (1 : Nat) (some ((2 : Nat) : Int))).buf i =
         readByte h (⟨⟨0, 0, 3⟩, true⟩ : MsgU).buf (1 + i))) :=
  ⟨by decide, by decide,
   c2_amended_slice_semantics.1 ⟨⟨0, 0, 3⟩, true⟩ 1 2 (by decide) (by decide)⟩

/-!
## Helper lemmas: the take family
-/

theorem readBE_some (h : Heap) (b : Buf) (c : Nat) (hc : c ≤ b.blen) :
    readBE h b c =
      some (beVal ((List.range c).map (fun i => (aread h b.aid (b.off + i)).getD 0))) := by
  unfold readBE
  rw [if_pos hc]

/-- The shared shape of the numeric takes (`takeUint16`/`takeUint32` are
exactly this; the signed ones compose it with `asInt`). -/
def takeNum (h : Heap) (m : Msg) (c : Nat) : Option (Nat × Msg) :=
  if m.endd < c then none else (readBE h m.buf c).map (fun u => (u, m.skip c))

theorem takeUint16_eq_takeNum (h : Heap) (m : Msg) : m.takeUint16 h = takeNum h m 2 := rfl

theorem takeUint32_eq_takeNum (h : Heap) (m : Msg) : m.takeUint32 h = takeNum h m 4 := rfl

theorem takeInt16_eq_takeNum (h : Heap) (m : Msg) :
    m.takeInt16 h = (takeNum h m 2).map (fun p => (asInt 16 p.1, p.2)) := by
  unfold Msg.takeInt16 takeNum
  by_cases hlt : m.endd < 2
  · simp [hlt]
  · cases hre : readBE h m.buf 2 <;> simp [hlt, hre]

theorem takeInt32_eq_takeNum (h : Heap) (m : Msg) :
    m.takeInt32 h = (takeNum h m 4).map (fun p => (asInt 32 p.1, p.2)) := by
  unfold Msg.takeInt32 takeNum
  by_cases hlt : m.endd < 4
  · simp [hlt]
  · cases hre : readBE h m.buf 4 <;> simp [hlt, hre]

theorem takeNum_spec (h : Heap) (m : Msg) (c : Nat) (hwf_e : m.endd ≤ m.buf.blen) :
    (takeNum h m c = none ↔ m.endd < c) ∧
    ∀ u m', takeNum h m c = some (u, m') →
      readBE h m.buf c = some u ∧ m' = m.skip c ∧ m'.endd = m.endd - c := by
  unfold takeNum
  by_cases hlt : m.endd < c
  · simp [hlt]
  · rw [if_neg hlt, readBE_some h m.buf c (by omega)]
    refine ⟨⟨fun hcon => absurd hcon (by simp), fun hcon => absurd hcon hlt⟩, ?_⟩
    intro u m' hsome
    simp only [Option.map_some', Option.some.injEq, Prod.mk.injEq] at hsome
    obtain ⟨hu, hm⟩ := hsome
    subst hu
    subst hm
    exact ⟨rfl, rfl, skip_endd m c⟩

/-- Counterexample for C3: a message produced by the out-of-range slice
quirk (part_001's `slice(2, 3)` of a 3-byte message reports length 3 on a
1-byte view).  `takeInt16` on it fails — `readInt16BE` raises on the
1-byte view — even though `len() = 3 ≥ 2`, contradicting "fails if and
only if `m.len() < n`". -/
theorem c3_counterexample :
    Msg.takeInt16 [[0, 17, 34]] (Msg.slice ⟨⟨0, 0, 3⟩, 3⟩ 2 (some 3)) = none ∧
    ¬ (Msg.slice ⟨⟨0, 0, 3⟩, 3⟩ 2 (some 3)).len < 2 := by decide

/-- Claim C3 (amended): for every message whose window is backed by its
view (`len() ≤ bytes.length`, true of every message produced by the
constructors, `clone`, the take family, `skip` and the appends — only the
out-of-range `slice` quirk violates it), each take operation with
required byte count `n` fails if and only if `len() < n`; failure raises
before any mutation, so the message is unchanged (the embedding returns
no successor state on `none`); on success it returns the value read
big-endian from the window's front and the successor state is exactly
`skip(n)`, so `len()` decreases by exactly `n`. -/
theorem c3_amended_take_contract (h : Heap) (m : Msg) (hwf : WFm h m) :
    ((m.takeByte h = none ↔ m.endd < 1) ∧
      ∀ v m', m.takeByte h = some (v, m') →
        v = readByte h m.buf 0 ∧ m' = m.skip 1 ∧ m'.endd = m.endd - 1) ∧
    ((m.takeInt16 h = none ↔ m.endd < 2) ∧
      ∀ v m', m.takeInt16 h = some (v, m') →
        (∃ u, readBE h m.buf 2 = some u ∧ v = asInt 16 u) ∧
        m' = m.skip 2 ∧ m'.endd = m.endd - 2) ∧
    ((m.takeUint16 h = none ↔ m.endd < 2) ∧
      ∀ v m', m.takeUint16 h = some (v, m') →
        readBE h m.buf 2 = some v ∧ m' = m.skip 2 ∧ m'.endd = m.endd - 2) ∧
    ((m.takeInt32 h = none ↔ m.endd < 4) ∧
      ∀ v m', m.takeInt32 h = some (v, m') →
        (∃ u, readBE h m.buf 4 = some u ∧ v = asInt 32 u) ∧
        m' = m.skip 4 ∧ m'.endd = m.endd - 4) ∧
    ((m.takeUint32 h = none ↔ m.endd < 4) ∧
      ∀ v m', m.takeUint32 h = some (v, m') →
        readBE h m.buf 4 = some v ∧ m' = m.skip 4 ∧ m'.endd = m.endd - 4) ∧
    (∀ len, (m.takeMessage len = none ↔ m.endd < len) ∧
      ∀ s m', m.takeMessage len = some (s, m') →
        s = m.slice 0 (some (len : Int)) ∧ m' = m.skip len ∧ m'.endd = m.endd - len) := by
  have he : m.endd ≤ m.buf.blen := hwf.2.2
  refine ⟨?_, ?_, ?_, ?_, ?_, ?_⟩
  · unfold Msg.takeByte
    by_cases hlt : m.endd < 1
    · simp [hlt]
    · rw [if_neg hlt]
      refine ⟨⟨fun hcon => absurd hcon (by simp), fun hcon => absurd hcon hlt⟩, ?_⟩
      intro v m' hsome
      simp only [Option.some.injEq, Prod.mk.injEq] at hsome
      obtain ⟨hv, hm⟩ := hsome
      subst hv
      subst hm
      refine ⟨?_, rfl, skip_endd m 1⟩
      unfold Msg.byteAt
      rw [if_pos (by omega)]
  · rw [takeInt16_eq_takeNum]
    obtain ⟨hiff, hsome⟩ := takeNum_spec h m 2 he
    refine ⟨by rw [Option.map_eq_none', hiff], ?_⟩
    intro v m' hmap
    rw [Option.map_eq_some'] at hmap
    obtain ⟨⟨u, mm⟩, hp, hfp⟩ := hmap
    simp only [Prod.mk.injEq] at hfp
    obtain ⟨hv, hmm⟩ := hfp
    subst hv
    subst hmm
    obtain ⟨hre, hskip, hendd⟩ := hsome u mm hp
    exact ⟨⟨u, hre, rfl⟩, hskip, hendd⟩
  · rw [takeUint16_eq_takeNum]
    exact takeNum_spec h m 2 he
  · rw [takeInt32_eq_takeNum]
    obtain ⟨hiff, hsome⟩ := takeNum_spec h m 4 he
    refine ⟨by rw [Option.map_eq_none', hiff], ?_⟩
    intro v m' hmap
    rw [Option.map_eq_some'] at hmap
    obtain ⟨⟨u, mm⟩, hp, hfp⟩ := hmap
    simp only [Prod.mk.injEq] at hfp
    obtain ⟨hv, hmm⟩ := hfp
    subst hv
    subst hmm
    obtain ⟨hre, hskip, hendd⟩ := hsome u mm hp
    exact ⟨⟨u, hre, rfl⟩, hskip, hendd⟩
  · rw [takeUint32_eq_takeNum]
    exact takeNum_spec h m 4 he
  · intro len
    unfold Msg.takeMessage
    by_cases hlt : m.endd < len
    · simp [hlt]
    · rw [if_neg hlt]
      refine ⟨⟨fun hcon => absurd hcon (by simp), fun hcon => absurd hcon hlt⟩, ?_⟩
      intro s m' hsome
      simp only [Option.some.injEq, Prod.mk.injEq] at hsome
      obtain ⟨hs, hm⟩ := hsome
      subst hs
      subst hm
      exact ⟨rfl, rfl, skip_endd m len⟩

/-- Witness for C3 at a concrete input: `takeUint16` on a well-formed
4-byte message. -/
theorem c3_witness :
    WFm [[1, 2, 3, 4]] ⟨⟨0, 0, 4⟩, 4⟩ ∧
    ((Msg.takeUint16 [[1, 2, 3, 4]] ⟨⟨0, 0, 4⟩, 4⟩ = none ↔
        (⟨⟨0, 0, 4⟩, 4⟩ : Msg).endd < 2) ∧
      ∀ v m', Msg.takeUint16 [[1, 2, 3, 4]] ⟨⟨0, 0, 4⟩, 4⟩ = some (v, m') →
        readBE [[1, 2, 3, 4]] (⟨⟨0, 0, 4⟩, 4⟩ : Msg).buf 2 = some v ∧
        m' = Msg.skip ⟨⟨0, 0, 4⟩, 4⟩ 2 ∧ m'.endd = (⟨⟨0, 0, 4⟩, 4⟩ : Msg).endd - 2) :=
  ⟨by decide,
   (c3_amended_take_contract [[1, 2, 3, 4]] ⟨⟨0, 0, 4⟩, 4⟩ (by decide)).2.2.1⟩

/-!
## Helper lemmas: append/take roundtrips
-/

/-- Reading the appended bytes through the view obtained by skipping the
pre-existing window content ("the position where the append left the
cursor"). -/
theorem append_skip_readByte (h : Heap) (m : Msg) (vals : List Nat) (hwf : WFm h m)
    (i : Nat) (hi : i < vals.length) :
    readByte (m.appendRaw h vals).1 ((m.appendRaw h vals).2.skip m.endd).buf i =
      some (vals.getD i 0 % 256) := by
  have hwf' := appendRaw_WF h m vals hwf
  have hend := appendRaw_endd h m vals
  have he' := hwf'.2.2
  have hsb := skip_buf (m.appendRaw h vals).2 m.endd
  have hmm : min (min m.endd (m.appendRaw h vals).2.endd) (m.appendRaw h vals).2.buf.blen
      = m.endd := by omega
  rw [hmm] at hsb
  rw [hsb]
  unfold readByte
  rw [if_pos (show i < (Buf.mk (m.appendRaw h vals).2.buf.aid
      ((m.appendRaw h vals).2.buf.off + m.endd)
      ((m.appendRaw h vals).2.buf.blen - m.endd)).blen by
    show i < (m.appendRaw h vals).2.buf.blen - m.endd
    omega)]
  have hrn := appendRaw_read_new h m vals hwf i hi
  unfold readByte at hrn
  rw [if_pos (by omega)] at hrn
  show aread (m.appendRaw h vals).1 (m.appendRaw h vals).2.buf.aid
      ((m.appendRaw h vals).2.buf.off + m.endd + i) = _
  have harith : (m.appendRaw h vals).2.buf.off + m.endd + i =
      (m.appendRaw h vals).2.buf.off + (m.endd + i) := by omega
  rw [harith]
  exact hrn

/-- The big-endian multi-byte read at the cursor position recovers the
appended byte values. -/
theorem append_skip_readBE (h : Heap) (m : Msg) (vals : List Nat) (hwf : WFm h m)
    (hb : ∀ v ∈ vals, v < 256) :
    readBE (m.appendRaw h vals).1 ((m.appendRaw h vals).2.skip m.endd).buf vals.length =
      some (beVal vals) := by
  have hwf' := appendRaw_WF h m vals hwf
  have hend := appendRaw_endd h m vals
  have he' := hwf'.2.2
  have hsb := skip_buf (m.appendRaw h vals).2 m.endd
  have hmm : min (min m.endd (m.appendRaw h vals).2.endd) (m.appendRaw h vals).2.buf.blen
      = m.endd := by omega
  rw [hmm] at hsb
  unfold readBE
  rw [hsb]
  rw [if_pos (show vals.length ≤ (Buf.mk (m.appendRaw h vals).2.buf.aid
      ((m.appendRaw h vals).2.buf.off + m.endd)
      ((m.appendRaw h vals).2.buf.blen - m.endd)).blen by
    show vals.length ≤ (m.appendRaw h vals).2.buf.blen - m.endd
    omega)]
  congr 1
  congr 1
  apply List.ext_getElem?
  intro i
  by_cases hi : i < vals.length
  · rw [List.getElem?_map, List.getElem?_range hi, List.getElem?_eq_getElem hi]
    have hrb := append_skip_readByte h m vals hwf i hi
    rw [hsb] at hrb
    unfold readByte at hrb
    rw [if_pos (show i < (Buf.mk (m.appendRaw h vals).2.buf.aid
        ((m.appendRaw h vals).2.buf.off + m.endd)
        ((m.appendRaw h vals).2.buf.blen - m.endd)).blen by
      show i < (m.appendRaw h vals).2.buf.blen - m.endd
      omega)] at hrb
    show some ((aread (m.appendRaw h vals).1 (m.appendRaw h vals).2.buf.aid
      ((m.appendRaw h vals).2.buf.off + m.endd + i)).getD 0) = _
    rw [hrb]
    have hgd : vals.getD i 0 = vals[i] := by
      simp [List.getD_eq_getElem?_getD, List.getElem?_eq_getElem hi]
    rw [Option.getD_some, hgd, Nat.mod_eq_of_lt (hb _ (List.getElem_mem hi))]
  · rw [List.getElem?_eq_none (by simp; omega), List.getElem?_eq_none (by omega)]

/-- Appending `vals` and then performing the matching-width numeric take
at the cursor yields exactly the big-endian value of `vals`. -/
theorem append_take_core (h : Heap) (m : Msg) (vals : List Nat) (hwf : WFm h m)
    (hb : ∀ v ∈ vals, v < 256) :
    takeNum (m.appendRaw h vals).1 ((m.appendRaw h vals).2.skip m.endd) vals.length =
      some (beVal vals, ((m.appendRaw h vals).2.skip m.endd).skip vals.length) := by
  have hend := appendRaw_endd h m vals
  have hms : ((m.appendRaw h vals).2.skip m.endd).endd = vals.length := by
    rw [skip_endd, hend]
    omega
  unfold takeNum
  rw [if_neg (by omega), append_skip_readBE h m vals hwf hb]
  rfl

theorem be16_lt (v : Nat) : ∀ x ∈ be16 v, x < 256 := by
  unfold be16
  intro x hx
  simp at hx
  rcases hx with hx | hx <;> omega

theorem be32_lt (v : Nat) : ∀ x ∈ be32 v, x < 256 := by
  unfold be32
  intro x hx
  simp at hx
  rcases hx with hx | hx | hx | hx <;> omega

theorem beVal_be16 (v : Nat) (hv : v < 2 ^ 16) : beVal (be16 v) = v := by
  unfold beVal be16
  simp [List.foldl]
  omega

theorem beVal_be32 (v : Nat) (hv : v < 2 ^ 32) : beVal (be32 v) = v := by
  unfold beVal be32
  simp [List.foldl]
  omega

theorem toUnsigned16_lt (v : Int) : toUnsigned 16 v < 2 ^ 16 := by
  unfold toUnsigned
  omega

theorem toUnsigned32_lt (v : Int) : toUnsigned 32 v < 2 ^ 32 := by
  unfold toUnsigned
  omega

theorem asInt_toUnsigned16 (v : Int) (hlo : -2 ^ 15 ≤ v) (hhi : v < 2 ^ 15) :
    asInt 16 (toUnsigned 16 v) = v := by
  unfold asInt toUnsigned
  split <;> omega

theorem asInt_toUnsigned32 (v : Int) (hlo : -2 ^ 31 ≤ v) (hhi : v < 2 ^ 31) :
    asInt 32 (toUnsigned 32 v) = v := by
  unfold asInt toUnsigned
  split <;> omega

/-- Claim C4: for every supported width (1, 2 or 4 bytes) and both
signedness variants, appending a value and immediately performing the
matching take at the position where the append left the cursor (the
pre-existing window content skipped) returns the value reinterpreted at
that width, bit for bit; in particular appending `0xFFFFFFFF` unsigned
and taking a signed 32-bit value returns `-1`.  Node's `write*BE` rejects
out-of-range arguments, so each part quantifies over the variant's value
range; `appendByte` coerces like a `Uint8Array` store, so its round trip
is stated for byte values. -/
theorem c4_append_take_inverse (h : Heap) (m : Msg) (hwf : WFm h m) :
    (∀ b : Nat, b < 256 →
      Msg.takeByte (m.appendByte h b).1 ((m.appendByte h b).2.skip m.endd) =
        some (some b, ((m.appendByte h b).2.skip m.endd).skip 1)) ∧
    (∀ v : Nat, v < 2 ^ 16 →
      Msg.takeUint16 (m.appendUint16 h v).1 ((m.appendUint16 h v).2.skip m.endd) =
        some (v, ((m.appendUint16 h v).2.skip m.endd).skip 2)) ∧
    (∀ v : Int, -2 ^ 15 ≤ v → v < 2 ^ 15 →
      Msg.takeInt16 (m.appendInt16 h v).1 ((m.appendInt16 h v).2.skip m.endd) =
        some (v, ((m.appendInt16 h v).2.skip m.endd).skip 2)) ∧
    (∀ v : Nat, v < 2 ^ 32 →
      Msg.takeUint32 (m.appendUint32 h v).1 ((m.appendUint32 h v).2.skip m.endd) =
        some (v, ((m.appendUint32 h v).2.skip m.endd).skip 4)) ∧
    (∀ v : Int, -2 ^ 31 ≤ v → v < 2 ^ 31 →
      Msg.takeInt32 (m.appendInt32 h v).1 ((m.appendInt32 h v).2.skip m.endd) =
        some (v, ((m.appendInt32 h v).2.skip m.endd).skip 4)) ∧
    (Msg.takeInt32 (m.appendUint32 h 0xFFFFFFFF).1
        ((m.appendUint32 h 0xFFFFFFFF).2.skip m.endd) =
      some (-1, ((m.appendUint32 h 0xFFFFFFFF).2.skip m.endd).skip 4)) := by
  refine ⟨?_, ?_, ?_, ?_, ?_, ?_⟩
  · intro b hb
    show Msg.takeByte (Msg.appendRaw h m [b]).1 ((Msg.appendRaw h m [b]).2.skip m.endd) =
      some (some b, ((Msg.appendRaw h m [b]).2.skip m.endd).skip 1)
    have hms : ((Msg.appendRaw h m [b]).2.skip m.endd).endd = 1 := by
      rw [skip_endd, appendRaw_endd]
      simp
    unfold Msg.takeByte
    rw [if_neg (by omega)]
    unfold Msg.byteAt
    rw [if_pos (by omega)]
    rw [append_skip_readByte h m [b] hwf 0 (by simp)]
    simp [Nat.mod_eq_of_lt hb]
  · intro v hv
    show Msg.takeUint16 (Msg.appendRaw h m (be16 v)).1
        ((Msg.appendRaw h m (be16 v)).2.skip m.endd) = _
    rw [takeUint16_eq_takeNum]
    have hcore := append_take_core h m (be16 v) hwf (be16_lt v)
    rw [show (be16 v).length = 2 from rfl] at hcore
    rw [hcore, beVal_be16 v hv]
    rfl
  · intro v hlo hhi
    show Msg.takeInt16 (Msg.appendRaw h m (be16 (toUnsigned 16 v))).1
        ((Msg.appendRaw h m (be16 (toUnsigned 16 v))).2.skip m.endd) = _
    rw [takeInt16_eq_takeNum]
    have hcore := append_take_core h m (be16 (toUnsigned 16 v)) hwf (be16_lt _)
    rw [show (be16 (toUnsigned 16 v)).length = 2 from rfl] at hcore
    rw [hcore]
    simp only [Option.map_some']
    rw [beVal_be16 _ (toUnsigned16_lt v), asInt_toUnsigned16 v hlo hhi]
    rfl
  · intro v hv
    show Msg.takeUint32 (Msg.appendRaw h m (be32 v)).1
        ((Msg.appendRaw h m (be32 v)).2.skip m.endd) = _
    rw [takeUint32_eq_takeNum]
    have hcore := append_take_core h m (be32 v) hwf (be32_lt v)
    rw [show (be32 v).length = 4 from rfl] at hcore
    rw [hcore, beVal_be32 v hv]
    rfl
  · intro v hlo hhi
    show Msg.takeInt32 (Msg.appendRaw h m (be32 (toUnsigned 32 v))).1
        ((Msg.appendRaw h m (be32 (toUnsigned 32 v))).2.skip m.endd) = _
    rw [takeInt32_eq_takeNum]
    have hcore := append_take_core h m (be32 (toUnsigned 32 v)) hwf (be32_lt _)
    rw [show (be32 (toUnsigned 32 v)).length = 4 from rfl] at hcore
    rw [hcore]
    simp only [Option.map_some']
    rw [beVal_be32 _ (toUnsigned32_lt v), asInt_toUnsigned32 v hlo hhi]
    rfl
  · show Msg.takeInt32 (Msg.appendRaw h m (be32 0xFFFFFFFF)).1
        ((Msg.appendRaw h m (be32 0xFFFFFFFF)).2.skip m.endd) = _
    rw [takeInt32_eq_takeNum]
    have hcore := append_take_core h m (be32 0xFFFFFFFF) hwf (be32_lt _)
    rw [show (be32 0xFFFFFFFF).length = 4 from rfl] at hcore
    rw [hcore]
    simp only [Option.map_some']
    rw [beVal_be32 0xFFFFFFFF (by norm_num)]
    norm_num [asInt]
    rfl

/-- Witness for C4 at a concrete input: the `0xFFFFFFFF` edge case on a
fresh empty message. -/
theorem c4_witness :
    WFm [[0, 0, 0, 0]] ⟨⟨0, 0, 4⟩, 0⟩ ∧
    Msg.takeInt32 (Msg.appendUint32 [[0, 0, 0, 0]] ⟨⟨0, 0, 4⟩, 0⟩ 0xFFFFFFFF).1
        ((Msg.appendUint32 [[0, 0, 0, 0]] ⟨⟨0, 0, 4⟩, 0⟩ 0xFFFFFFFF).2.skip
          (⟨⟨0, 0, 4⟩, 0⟩ : Msg).endd) =
      some (-1, ((Msg.appendUint32 [[0, 0, 0, 0]] ⟨⟨0, 0, 4⟩, 0⟩ 0xFFFFFFFF).2.skip
          (⟨⟨0, 0, 4⟩, 0⟩ : Msg).endd).skip 4) :=
  ⟨by decide,
   (c4_append_take_inverse [[0, 0, 0, 0]] ⟨⟨0, 0, 4⟩, 0⟩ (by decide)).2.2.2.2.2⟩

/-- Claim C8: all multi-byte appends and takes are big-endian.  After
`appendUint16(v)` (cursor at the appended bytes), `takeByte` returns the
most significant byte `v >> 8` and a second `takeByte` returns `v mod
256`; a 32-bit append stores its four bytes most significant first; and
the signed and unsigned variants of a width write (and read) the same
two's complement bit pattern. -/
theorem c8_big_endian_encoding (h : Heap) (m : Msg) (hwf : WFm h m) :
    (∀ v : Nat, v < 2 ^ 16 →
      Msg.takeByte (m.appendUint16 h v).1 ((m.appendUint16 h v).2.skip m.endd) =
        some (some (v / 2 ^ 8), ((m.appendUint16 h v).2.skip m.endd).skip 1) ∧
      Msg.takeByte (m.appendUint16 h v).1 (((m.appendUint16 h v).2.skip m.endd).skip 1) =
        some (some (v % 256), (((m.appendUint16 h v).2.skip m.endd).skip 1).skip 1)) ∧
    (∀ v : Nat, v < 2 ^ 32 →
      readByte (m.appendUint32 h v).1 ((m.appendUint32 h v).2.skip m.endd).buf 0 =
        some (v / 2 ^ 24) ∧
      readByte (m.appendUint32 h v).1 ((m.appendUint32 h v).2.skip m.endd).buf 1 =
        some (v / 2 ^ 16 % 256) ∧
      readByte (m.appendUint32 h v).1 ((m.appendUint32 h v).2.skip m.endd).buf 2 =
        some (v / 2 ^ 8 % 256) ∧
      readByte (m.appendUint32 h v).1 ((m.appendUint32 h v).2.skip m.endd).buf 3 =
        some (v % 256)) ∧
    (∀ v : Int, m.appendInt16 h v = m.appendUint16 h (toUnsigned 16 v)) ∧
    (∀ v : Int, m.appendInt32 h v = m.appendUint32 h (toUnsigned 32 v)) ∧
    (m.takeInt16 h = (m.takeUint16 h).map (fun p => (asInt 16 p.1, p.2))) ∧
    (m.takeInt32 h = (m.takeUint32 h).map (fun p => (asInt 32 p.1, p.2))) := by
  refine ⟨?_, ?_, fun v => rfl, fun v => rfl, ?_, ?_⟩
  · intro v hv
    have hms : ((Msg.appendRaw h m (be16 v)).2.skip m.endd).endd = 2 := by
      rw [skip_endd, appendRaw_endd, show (be16 v).length = 2 from rfl]
      omega
    constructor
    · show Msg.takeByte (Msg.appendRaw h m (be16 v)).1
        ((Msg.appendRaw h m (be16 v)).2.skip m.endd) = _
      unfold Msg.takeByte
      rw [if_neg (by omega)]
      unfold Msg.byteAt
      rw [if_pos (by omega)]
      rw [append_skip_readByte h m (be16 v) hwf 0 (by norm_num [be16])]
      rw [show (be16 v).getD 0 0 % 256 = v / 2 ^ 8 by
        show v / 2 ^ 8 % 256 % 256 = v / 2 ^ 8
        omega]
      rfl
    · show Msg.takeByte (Msg.appendRaw h m (be16 v)).1
        (((Msg.appendRaw h m (be16 v)).2.skip m.endd).skip 1) = _
      have hms1 : (((Msg.appendRaw h m (be16 v)).2.skip m.endd).skip 1).endd = 1 := by
        rw [skip_endd, hms]
      unfold Msg.takeByte
      rw [if_neg (by omega)]
      unfold Msg.byteAt
      rw [if_pos (by omega)]
      rw [skip_readByte, hms,
        show min 1 2 + 0 = 1 by norm_num,
        append_skip_readByte h m (be16 v) hwf 1 (by norm_num [be16])]
      rw [show (be16 v).getD 1 0 % 256 = v % 256 by
        show v % 256 % 256 = v % 256
        omega]
      rfl
  · intro v hv
    refine ⟨?_, ?_, ?_, ?_⟩
    · show readByte (Msg.appendRaw h m (be32 v)).1
        ((Msg.appendRaw h m (be32 v)).2.skip m.endd).buf 0 = _
      rw [append_skip_readByte h m (be32 v) hwf 0 (by norm_num [be32])]
      rw [show (be32 v).getD 0 0 % 256 = v / 2 ^ 24 by
        show v / 2 ^ 24 % 256 % 256 = v / 2 ^ 24
        omega]
    · show readByte (Msg.appendRaw h m (be32 v)).1
        ((Msg.appendRaw h m (be32 v)).2.skip m.endd).buf 1 = _
      rw [append_skip_readByte h m (be32 v) hwf 1 (by norm_num [be32])]
      rw [show (be32 v).getD 1 0 % 256 = v / 2 ^ 16 % 256 by
        show v / 2 ^ 16 % 256 % 256 = v / 2 ^ 16 % 256
        omega]
    · show readByte (Msg.appendRaw h m (be32 v)).1
        ((Msg.appendRaw h m (be32 v)).2.skip m.endd).buf 2 = _
      rw [append_skip_readByte h m (be32 v) hwf 2 (by norm_num [be32])]
      rw [show (be32 v).getD 2 0 % 256 = v / 2 ^ 8 % 256 by
        show v / 2 ^ 8 % 256 % 256 = v / 2 ^ 8 % 256
        omega]
    · show readByte (Msg.appendRaw h m (be32 v)).1
        ((Msg.appendRaw h m (be32 v)).2.skip m.endd).buf 3 = _
      rw [append_skip_readByte h m (be32 v) hwf 3 (by norm_num [be32])]
      rw [show (be32 v).getD 3 0 % 256 = v % 256 by
        show v % 256 % 256 = v % 256
        omega]
  · rw [takeInt16_eq_takeNum, takeUint16_eq_takeNum]
  · rw [takeInt32_eq_takeNum, takeUint32_eq_takeNum]

/-- Witness for C8 at a concrete input: `appendUint16(0x1234)` on an
empty message, read back as two single bytes `0x12` then `0x34`. -/
theorem c8_witness :
    WFm [[0, 0]] ⟨⟨0, 0, 2⟩, 0⟩ ∧
    (Msg.takeByte (Msg.appendUint16 [[0, 0]] ⟨⟨0, 0, 2⟩, 0⟩ 0x1234).1
        ((Msg.appendUint16 [[0, 0]] ⟨⟨0, 0, 2⟩, 0⟩ 0x1234).2.skip
          (⟨⟨0, 0, 2⟩, 0⟩ : Msg).endd) =
      some (some (0x1234 / 2 ^ 8),
        ((Msg.appendUint16 [[0, 0]] ⟨⟨0, 0, 2⟩, 0⟩ 0x1234).2.skip
          (⟨⟨0, 0, 2⟩, 0⟩ : Msg).endd).skip 1) ∧
     Msg.takeByte (Msg.appendUint16 [[0, 0]] ⟨⟨0, 0, 2⟩, 0⟩ 0x1234).1
        (((Msg.appendUint16 [[0, 0]] ⟨⟨0, 0, 2⟩, 0⟩ 0x1234).2.skip
          (⟨⟨0, 0, 2⟩, 0⟩ : Msg).endd).skip 1) =
      some (some (0x1234 % 256),
        (((Msg.appendUint16 [[0, 0]] ⟨⟨0, 0, 2⟩, 0⟩ 0x1234).2.skip
          (⟨⟨0, 0, 2⟩, 0⟩ : Msg).endd).skip 1).skip 1)) :=
  ⟨by decide,
   (c8_big_endian_encoding [[0, 0]] ⟨⟨0, 0, 2⟩, 0⟩ (by decide)).1 0x1234 (by decide)⟩

/-!
## Helper lemmas: the cryptoe.js growth policy
-/

theorem ensureSpace_eq_grow (h : Heap) (m : MsgU) (k : Nat)
    (hc : m.owner = false ∨ arenaLen h m.buf.aid < m.buf.off + (m.len + k)) :
    m.ensureSpace h k =
      (h ++ [(List.range ((m.len + k) * 2)).map (fun i =>
          if i < m.buf.blen then (aread h m.buf.aid (m.buf.off + i)).getD 0 else 0)],
       ⟨⟨h.length, 0, m.len + k⟩, true⟩) := by
  simp [MsgU.ensureSpace, MsgU.reallocate, hc]

theorem ensureSpace_eq_fit (h : Heap) (m : MsgU) (k : Nat)
    (hc : ¬ (m.owner = false ∨ arenaLen h m.buf.aid < m.buf.off + (m.len + k))) :
    m.ensureSpace h k = (h, ⟨⟨m.buf.aid, m.buf.off, m.len + k⟩, m.owner⟩) := by
  simp only [MsgU.ensureSpace]
  rw [if_neg hc]

/-- Claim C5: when an append of `k` bytes finds the message non-owning,
or the backing buffer lacking `k` bytes of free capacity immediately
after the window's current end, the growth step allocates one fresh
arena of size exactly `2 × (len() + k)`, copies the window's bytes to
its start, and rebinds the message as owner of the new arena (offset 0,
window widened to `len() + k`); otherwise it leaves the heap untouched
(no copy, no reallocation) and only widens the view in place by `k`. -/
theorem c5_growth_policy (h : Heap) (m : MsgU) (k : Nat) :
    ((m.owner = false ∨ arenaLen h m.buf.aid < m.buf.off + (m.len + k)) →
      (m.ensureSpace h k).1.length = h.length + 1 ∧
      arenaLen (m.ensureSpace h k).1 h.length = 2 * (m.len + k) ∧
      (∀ i, i < m.len →
        aread (m.ensureSpace h k).1 h.length i =
          some ((aread h m.buf.aid (m.buf.off + i)).getD 0)) ∧
      (m.ensureSpace h k).2 = ⟨⟨h.length, 0, m.len + k⟩, true⟩) ∧
    (¬ (m.owner = false ∨ arenaLen h m.buf.aid < m.buf.off + (m.len + k)) →
      (m.ensureSpace h k).1 = h ∧
      (m.ensureSpace h k).2 = ⟨⟨m.buf.aid, m.buf.off, m.len + k⟩, m.owner⟩) := by
  constructor
  · intro hc
    rw [ensureSpace_eq_grow h m k hc]
    refine ⟨by simp, ?_, ?_, rfl⟩
    · show arenaLen (h ++ [_]) h.length = 2 * (m.len + k)
      rw [arenaLen_append_new]
      simp [Nat.mul_comm]
    · intro i hi
      show aread (h ++ [_]) h.length i = _
      rw [aread_append_new]
      have hlt : i < ((List.range ((m.len + k) * 2)).map (fun i =>
          if i < m.buf.blen then (aread h m.buf.aid (m.buf.off + i)).getD 0 else 0)).length := by
        simp
        have : m.len ≤ (m.len + k) * 2 := by omega
        omega
      rw [List.getElem?_eq_getElem hlt]
      simp only [List.getElem_map, List.getElem_range]
      rw [if_pos (show i < m.buf.blen from hi)]
  · intro hc
    rw [ensureSpace_eq_fit h m k hc]
    exact ⟨rfl, rfl⟩

/-- Witness for C5 at a concrete input: a non-owning 2-byte message is
grown by 1 byte, allocating a fresh 6-byte arena. -/
theorem c5_witness :
    (((⟨⟨0, 0, 2⟩, false⟩ : MsgU).owner = false ∨
        arenaLen [[1, 2]] 0 < 0 + (2 + 1)) →
      (MsgU.ensureSpace [[1, 2]] ⟨⟨0, 0, 2⟩, false⟩ 1).1.length = 1 + 1 ∧
      arenaLen (MsgU.ensureSpace [[1, 2]] ⟨⟨0, 0, 2⟩, false⟩ 1).1 1 = 2 * (2 + 1) ∧
      (∀ i, i < (⟨⟨0, 0, 2⟩, false⟩ : MsgU).len →
        aread (MsgU.ensureSpace [[1, 2]] ⟨⟨0, 0, 2⟩, false⟩ 1).1 1 i =
          some ((aread [[1, 2]] 0 (0 + i)).getD 0)) ∧
      (MsgU.ensureSpace [[1, 2]] ⟨⟨0, 0, 2⟩, false⟩ 1).2 = ⟨⟨1, 0, 2 + 1⟩, true⟩) ∧
    (¬ ((⟨⟨0, 0, 2⟩, false⟩ : MsgU).owner = false ∨
        arenaLen [[1, 2]] 0 < 0 + (2 + 1)) →
      (MsgU.ensureSpace [[1, 2]] ⟨⟨0, 0, 2⟩, false⟩ 1).1 = [[1, 2]] ∧
      (MsgU.ensureSpace [[1, 2]] ⟨⟨0, 0, 2⟩, false⟩ 1).2 = ⟨⟨0, 0, 2 + 1⟩, false⟩) :=
  c5_growth_policy [[1, 2]] ⟨⟨0, 0, 2⟩, false⟩ 1

theorem emptyMessage_WF (h : Heap) : WFm (emptyMessage h).1 (emptyMessage h).2 := by
  refine ⟨?_, ?_, ?_⟩
  · show h.length < (h ++ [List.replicate 256 0]).length
    rw [List.length_append, List.length_singleton]
    omega
  · show 0 + 256 ≤ arenaLen (h ++ [List.replicate 256 0]) h.length
    rw [arenaLen_append_new, List.length_replicate]
  · show (0 : Nat) ≤ 256
    omega

theorem visible_emptyMessage (h : Heap) :
    visible (emptyMessage h).1 (emptyMessage h).2 = [] := rfl

theorem appendRaw_visible_bytes (h : Heap) (m : Msg) (vs : List Nat) (hwf : WFm h m)
    (hb : ∀ v ∈ vs, v < 256) :
    visible (m.appendRaw h vs).1 (m.appendRaw h vs).2 = visible h m ++ vs.map some := by
  rw [appendRaw_visible h m vs hwf]
  congr 1
  exact List.map_congr_left (fun v hv => by rw [Nat.mod_eq_of_lt (hb v hv)])

/-- Claim C6: for every key and plaintext, `encrypt` returns a message
laid out as `nonce ‖ ciphertext ‖ tag`: under the spec-modelled engine
contract (nonce = 12 bytes, ciphertext length = plaintext length `mlen`,
tag = 16 bytes), the result's visible bytes are exactly the
concatenation, its length is `mlen + 28`, and its first 12 bytes are the
nonce handed to the cipher. -/
theorem c6_encrypt_wire_layout (h : Heap) (mlen : Nat) (nonce upd fin tag : List Nat)
    (heng : AEADEngine mlen nonce upd fin tag) :
    visible (encrypt h nonce upd fin tag).1 (encrypt h nonce upd fin tag).2 =
      (nonce ++ upd ++ fin ++ tag).map some ∧
    (encrypt h nonce upd fin tag).2.len = mlen + 28 ∧
    (visible (encrypt h nonce upd fin tag).1 (encrypt h nonce upd fin tag).2).take 12 =
      nonce.map some := by
  obtain ⟨hn, hct, htg, hbn, hbu, hbf, hbt⟩ := heng
  set p0 := emptyMessage h with hp0
  set p1 := Msg.appendRaw p0.1 p0.2 nonce with hp1
  set p2 := Msg.appendRaw p1.1 p1.2 upd with hp2
  set p3 := Msg.appendRaw p2.1 p2.2 fin with hp3
  set p4 := Msg.appendRaw p3.1 p3.2 tag with hp4
  have henc : encrypt h nonce upd fin tag = p4 := rfl
  have hw0 : WFm p0.1 p0.2 := emptyMessage_WF h
  have hw1 : WFm p1.1 p1.2 := appendRaw_WF p0.1 p0.2 nonce hw0
  have hw2 : WFm p2.1 p2.2 := appendRaw_WF p1.1 p1.2 upd hw1
  have hw3 : WFm p3.1 p3.2 := appendRaw_WF p2.1 p2.2 fin hw2
  have hv0 : visible p0.1 p0.2 = [] := visible_emptyMessage h
  have hv1 : visible p1.1 p1.2 = visible p0.1 p0.2 ++ nonce.map some :=
    appendRaw_visible_bytes p0.1 p0.2 nonce hw0 hbn
  have hv2 : visible p2.1 p2.2 = visible p1.1 p1.2 ++ upd.map some :=
    appendRaw_visible_bytes p1.1 p1.2 upd hw1 hbu
  have hv3 : visible p3.1 p3.2 = visible p2.1 p2.2 ++ fin.map some :=
    appendRaw_visible_bytes p2.1 p2.2 fin hw2 hbf
  have hv4 : visible p4.1 p4.2 = visible p3.1 p3.2 ++ tag.map some :=
    appendRaw_visible_bytes p3.1 p3.2 tag hw3 hbt
  have he0 : p0.2.endd = 0 := rfl
  have he1 : p1.2.endd = p0.2.endd + nonce.length := appendRaw_endd p0.1 p0.2 nonce
  have he2 : p2.2.endd = p1.2.endd + upd.length := appendRaw_endd p1.1 p1.2 upd
  have he3 : p3.2.endd = p2.2.endd + fin.length := appendRaw_endd p2.1 p2.2 fin
  have he4 : p4.2.endd = p3.2.endd + tag.length := appendRaw_endd p3.1 p3.2 tag
  refine ⟨?_, ?_, ?_⟩
  · rw [henc, hv4, hv3, hv2, hv1, hv0]
    simp
  · rw [henc]
    show p4.2.endd = mlen + 28
    omega
  · rw [henc, hv4, hv3, hv2, hv1, hv0, List.nil_append, List.append_assoc,
      List.append_assoc]
    rw [show (12 : Nat) = (nonce.map some).length by simp [hn]]
    exact List.take_left _ _

/-- Witness for C6 at a concrete input: a 2-byte plaintext with concrete
engine outputs; the packed message is `nonce ‖ ct ‖ tag` of length 30. -/
theorem c6_witness :
    AEADEngine 2 [1, 2, 3, 4, 5, 6, 7, 8, 9, 10, 11, 12] [77] [88]
      [20, 21, 22, 23, 24, 25, 26, 27, 28, 29, 30, 31, 32, 33, 34, 35] ∧
    (visible (encrypt [] [1, 2, 3, 4, 5, 6, 7, 8, 9, 10, 11, 12] [77] [88]
          [20, 21, 22, 23, 24, 25, 26, 27, 28, 29, 30, 31, 32, 33, 34, 35]).1
        (encrypt [] [1, 2, 3, 4, 5, 6, 7, 8, 9, 10, 11, 12] [77] [88]
          [20, 21, 22, 23, 24, 25, 26, 27, 28, 29, 30, 31, 32, 33, 34, 35]).2 =
      ([1, 2, 3, 4, 5, 6, 7, 8, 9, 10, 11, 12] ++ [77] ++ [88] ++
        [20, 21, 22, 23, 24, 25, 26, 27, 28, 29, 30, 31, 32, 33, 34, 35]).map some ∧
    (encrypt [] [1, 2, 3, 4, 5, 6, 7, 8, 9, 10, 11, 12] [77] [88]
        [20, 21, 22, 23, 24, 25, 26, 27, 28, 29, 30, 31, 32, 33, 34, 35]).2.len = 2 + 28 ∧
    (visible (encrypt [] [1, 2, 3, 4, 5, 6, 7, 8, 9, 10, 11, 12] [77] [88]
          [20, 21, 22, 23, 24, 25, 26, 27, 28, 29, 30, 31, 32, 33, 34, 35]).1
        (encrypt [] [1, 2, 3, 4, 5, 6, 7, 8, 9, 10, 11, 12] [77] [88]
          [20, 21, 22, 23, 24, 25, 26, 27, 28, 29, 30, 31, 32, 33, 34, 35]).2).take 12 =
      [1, 2, 3, 4, 5, 6, 7, 8, 9, 10, 11, 12].map some) :=
  ⟨by unfold AEADEngine; decide,
   c6_encrypt_wire_layout [] 2 [1, 2, 3, 4, 5, 6, 7, 8, 9, 10, 11, 12] [77] [88]
     [20, 21, 22, 23, 24, 25, 26, 27, 28, 29, 30, 31, 32, 33, 34, 35]
     (by unfold AEADEngine; decide)⟩

/-- Claim C7 evidence: the hex constructor rejects only odd-length
input.  `"am"` (even length, non-hex second character) is *accepted*:
`parseInt('m', 16)` is `NaN`, the `NaN` sum is stored as byte 0, and a
1-byte message is returned — although the repository's own test
(`src/unnamed/part_002`, the `messageFromHexString` "am" case) asserts
this call must throw.  The odd-length `"12345"` is rejected, and a valid
string `"0f10"` decodes two characters per byte. -/
theorem c7_hex_constructor_behavior :
    messageFromHexString [] ['a', 'm'] = some ([[0]], ⟨⟨0, 0, 1⟩, true⟩) ∧
    messageFromHexString [] ['1', '2', '3', '4', '5'] = none ∧
    messageFromHexString [] ['0', 'f', '1', '0'] = some ([[15, 16]], ⟨⟨0, 0, 2⟩, true⟩) := by
  decide
